import Mathlib

/-!
# Branch checking in `cmd/compile/internal/syntax/branches.go`

A shallow embedding of `checkBranches` and of the functions it is built from
(`labelScope.err`, `labelScope.declare`, `labelScope.enclosingTarget`,
`labelScope.blockBranches`), followed by theorems about them.

Modelling conventions.

* A pointer to a syntax node is the address of the node (`node.addr`); two
  pointers are equal when the addresses are.  A non-nil `Stmt` interface value
  is a `StmtRef`: the dynamic type of the node and its address.
* The pass mutates the `Target` field of `BranchStmt` nodes in place.  Here every
  function of the walk returns the statements it walked with the `Target` fields
  as the walk left them, next to the new `labelScope`.
* `labelScope.errh` is the error handler.  Here it is the list of the errors the
  handler has been called with, oldest first.
* A `panic` unwinds the walk: `Walk.panic` holds the panic value, the errors
  already reported and the targets already written stay as they are, and nothing
  else is executed.
-/

namespace Branches

/-! ## Syntax nodes -/

/-- Modelled from the spec: a source position (the declaration of `Pos` is not
part of the sources at hand; the pass only stores positions and hands them to
the error handler). -/
structure Pos where
  line : Nat
  col : Nat
deriving DecidableEq

/-- Modelled from the spec: the text of a position, used by `declare` in the
"already defined at" message (`Pos.String` is not part of the sources at hand). -/
def Pos.String (p : Pos) : String :=
  toString p.line ++ ":" ++ toString p.col

/-- Modelled from the spec: `Error{pos, msg}`, a position and a message. -/
structure Error where
  pos : Pos
  msg : String
deriving DecidableEq

/-- Modelled from the spec: the tokens a `BranchStmt` can carry in `Tok`.  The
pass distinguishes `_Break`, `_Continue` and `_Fallthrough`; `_Goto` and every
other token (`other`) fall into its `default` cases. -/
inductive token where
  | _Break
  | _Continue
  | _Fallthrough
  | _Goto
  | other (code : Nat)
deriving DecidableEq

/-- Modelled from the spec: the header every syntax node embeds: its position,
and its address, which stands for the pointer to the node. -/
structure node where
  addr : Nat
  pos : Pos
deriving DecidableEq

/-- Modelled from the spec: `Name`, an identifier with its position. -/
structure Name where
  pos : Pos
  Value : String
deriving DecidableEq

/-- The dynamic types of statement nodes that the pass tells apart; `Other` is
any statement kind the pass walks over without effect. -/
inductive StmtKind where
  | LabeledStmt
  | BranchStmt
  | BlockStmt
  | IfStmt
  | ForStmt
  | SwitchStmt
  | SelectStmt
  | Other
deriving DecidableEq

/-- A non-nil `Stmt` interface value: dynamic type and address of the node. -/
structure StmtRef where
  kind : StmtKind
  addr : Nat
deriving DecidableEq

/-- Modelled from the spec: `BranchStmt`, with the branch kind `Tok`, the
optional `Label` and the output field `Target` (nil when unset). -/
structure BranchStmt where
  n : node
  Tok : token
  Label : Option Name
  Target : Option StmtRef
deriving DecidableEq

mutual
/-- Modelled from the spec: the statement tree.  `Then` and `Body` of `IfStmt` and
`ForStmt` are block statements, given by their position and statement list; the
clauses of `SwitchStmt` and `SelectStmt` are given by `Clause`. -/
inductive Stmt where
  | LabeledStmt (n : node) (Label : Name) (Stmt : Stmt)
  | BranchStmt (s : BranchStmt)
  | BlockStmt (n : node) (List : List Stmt)
  | IfStmt (n : node) (ThenPos : Pos) (Then : List Stmt) (Else : Option Stmt)
  | ForStmt (n : node) (BodyPos : Pos) (Body : List Stmt)
  | SwitchStmt (n : node) (Body : List Clause)
  | SelectStmt (n : node) (Body : List Clause)
  | Other (n : node)
/-- Modelled from the spec: a `CaseClause` or `CommClause`; the pass reads its
position and its `Body` only. -/
inductive Clause where
  | mk (pos : Pos) (Body : List Stmt)
end

/-- Modelled from the spec: a `BlockStmt` node as `checkBranches` receives it. -/
structure BlockStmt where
  n : node
  List : List Stmt

/-- The header of a statement node. -/
def Stmt.node : Stmt → node
  | .LabeledStmt n _ _ => n
  | .BranchStmt s => s.n
  | .BlockStmt n _ => n
  | .IfStmt n _ _ _ => n
  | .ForStmt n _ _ => n
  | .SwitchStmt n _ => n
  | .SelectStmt n _ => n
  | .Other n => n

/-- The position `s.Pos()` of a statement. -/
def Stmt.Pos (s : Stmt) : Pos := s.node.pos

/-- The dynamic type of a statement node. -/
def Stmt.kind : Stmt → StmtKind
  | .LabeledStmt _ _ _ => .LabeledStmt
  | .BranchStmt _ => .BranchStmt
  | .BlockStmt _ _ => .BlockStmt
  | .IfStmt _ _ _ _ => .IfStmt
  | .ForStmt _ _ _ => .ForStmt
  | .SwitchStmt _ _ => .SwitchStmt
  | .SelectStmt _ _ => .SelectStmt
  | .Other _ => .Other

/-- The interface value holding a pointer to the statement. -/
def Stmt.ref (s : Stmt) : StmtRef := ⟨s.kind, s.node.addr⟩

/-- A `*LabeledStmt`: the address of the node together with the two fields the
pass reads through the pointer, `Label` and `Stmt` (nil in the zero value). -/
structure LabeledStmtPtr where
  addr : Nat
  Label : Name
  Stmt : Option StmtRef
deriving DecidableEq

/-! ## The data of the pass -/

/-- The struct `block`: one lexical block of the walk. -/
structure block where
  parent : Option block
  start : Pos
  lstmt : Option LabeledStmtPtr

/-- The struct `label`: one declared label. -/
structure label where
  parent : Option block
  lstmt : LabeledStmtPtr
  used : Bool

/-- The struct `labelScope`.  `labels` is `none` for the nil map, and otherwise
the entries of the map in the order in which they were inserted. -/
structure labelScope where
  errh : List Error
  labels : Option (List (String × label))

/-- The struct `targets`: `breaks` is a `Stmt`, `continues` a `*ForStmt`. -/
structure targets where
  breaks : Option StmtRef
  continues : Option Nat
deriving DecidableEq

/-- What a function of the walk leaves behind: the statements it walked (with
their `Target` fields), the label scope, and the panic value if it panicked. -/
structure Walk (α : Type) where
  tree : α
  ls : labelScope
  panic : Option String

/-- The method `ls.err(pos, format, args...)`, with the message already formatted. -/
def labelScope.err (ls : labelScope) (pos : Pos) (msg : String) : labelScope :=
  { ls with errh := ls.errh ++ [⟨pos, msg⟩] }

/-- The map lookup `ls.labels[name]`. -/
def labelScope.lookup (ls : labelScope) (name : String) : Option label :=
  match ls.labels with
  | none => none
  | some labels => labels.lookup name

/-- The method `ls.declare(b, s)`: the label returned and the scope afterwards. -/
def labelScope.declare (ls : labelScope) (b : Option block) (s : LabeledStmtPtr) :
    label × labelScope :=
  let name := s.Label.Value
  match ls.labels with
  | none =>
    let l : label := ⟨b, s, false⟩
    (l, { ls with labels := some [(name, l)] })
  | some labels =>
    match labels.lookup name with
    | some alt =>
      (alt, ls.err s.Label.pos
        ("label " ++ name ++ " already defined at " ++ alt.lstmt.Label.pos.String))
    | none =>
      let l : label := ⟨b, s, false⟩
      (l, { ls with labels := some (labels ++ [(name, l)]) })

/-- The singleton `var invalid = new(LabeledStmt)`: the zero `LabeledStmt`, whose `Stmt` is nil. -/
def invalid : LabeledStmtPtr := ⟨0, ⟨⟨0, 0⟩, ""⟩, none⟩

/-- The assignment `l.used = true` for the label stored under `name`. -/
def markUsed (name : String) : List (String × label) → List (String × label)
  | [] => []
  | (k, l) :: rest =>
    if k = name then (k, { l with used := true }) :: rest
    else (k, l) :: markUsed name rest

/-- The loop `for ; b != nil; b = b.parent` of `enclosingTarget`. -/
def enclosingTarget.loop (l : label) : Option block → LabeledStmtPtr
  | none => invalid
  | some ⟨parent, _, lstmt⟩ =>
    if lstmt.map (fun p => p.addr) = some l.lstmt.addr then l.lstmt
    else enclosingTarget.loop l parent

/-- The method `ls.enclosingTarget(b, name)`: the result (nil is `none`) and the scope
afterwards. -/
def labelScope.enclosingTarget (ls : labelScope) (b : Option block) (name : String) :
    Option LabeledStmtPtr × labelScope :=
  match ls.lookup name with
  | some l =>
    (some (enclosingTarget.loop l b),
      { ls with labels := ls.labels.map (markUsed name) })
  | none => (none, ls)

/-! ## The walk -/

/-- The `case *BranchStmt` of the statement switch in `blockBranches`, for the
branch statement `s` met in block `b` under the target set `ctxt`. -/
def branchStmt (b : block) (ctxt : targets) (s : BranchStmt) (ls : labelScope) :
    Walk BranchStmt :=
  match s.Label with
  | none =>
    -- unlabeled branch statement
    match s.Tok with
    | ._Break =>
      match ctxt.breaks with
      | some t => ⟨{ s with Target := some t }, ls, none⟩
      | none => ⟨s, ls.err s.n.pos "break is not in a loop, switch, or select", none⟩
    | ._Continue =>
      match ctxt.continues with
      | some t => ⟨{ s with Target := some ⟨.ForStmt, t⟩ }, ls, none⟩
      | none => ⟨s, ls.err s.n.pos "continue is not in a loop", none⟩
    | ._Fallthrough => ⟨s, ls, none⟩
    | _ => ⟨s, ls, some "invalid BranchStmt"⟩
  | some lbl =>
    -- labeled branch statement
    let name := lbl.Value
    match s.Tok with
    | ._Break =>
      match ls.enclosingTarget (some b) name with
      | (some t, ls1) =>
        match t.Stmt with
        | some ⟨.SwitchStmt, a⟩ => ⟨{ s with Target := some ⟨.SwitchStmt, a⟩ }, ls1, none⟩
        | some ⟨.SelectStmt, a⟩ => ⟨{ s with Target := some ⟨.SelectStmt, a⟩ }, ls1, none⟩
        | some ⟨.ForStmt, a⟩ => ⟨{ s with Target := some ⟨.ForStmt, a⟩ }, ls1, none⟩
        | _ => ⟨s, ls1.err lbl.pos ("invalid break label " ++ name), none⟩
      | (none, ls1) => ⟨s, ls1.err lbl.pos ("break label not defined: " ++ name), none⟩
    | ._Continue =>
      match ls.enclosingTarget (some b) name with
      | (some t, ls1) =>
        match t.Stmt with
        | some ⟨.ForStmt, a⟩ => ⟨{ s with Target := some ⟨.ForStmt, a⟩ }, ls1, none⟩
        | _ => ⟨s, ls1.err lbl.pos ("invalid continue label " ++ name), none⟩
      | (none, ls1) => ⟨s, ls1.err lbl.pos ("continue label not defined: " ++ name), none⟩
    | _ => ⟨s, ls, some "invalid BranchStmt"⟩

mutual
/-- One pass of the loop body of `blockBranches` from the label `L:` on, for the
statement `stmt`: `b` is the block of the enclosing call, `ctxt` its target set
and `lstmt` the current value of the variable `lstmt` (the closure `innerBlock`
reads that variable when it is called). -/
def stmtBranches (b : block) (ctxt : targets) (lstmt : Option LabeledStmtPtr) :
    Stmt → labelScope → Walk Stmt
  | .LabeledStmt n Label inner, ls =>
    -- the label is not declared; a non-blank label becomes the current lstmt
    let lstmt1 := if Label.Value ≠ "_" then some ⟨n.addr, Label, some inner.ref⟩ else lstmt
    let r := stmtBranches b ctxt lstmt1 inner ls
    ⟨.LabeledStmt n Label r.tree, r.ls, r.panic⟩
  | .BranchStmt s, ls =>
    let r := branchStmt b ctxt s ls
    ⟨.BranchStmt r.tree, r.ls, r.panic⟩
  | .BlockStmt n List, ls =>
    let r := blockBranches (some b) ctxt lstmt n.pos List ls
    ⟨.BlockStmt n r.tree, r.ls, r.panic⟩
  | .IfStmt n ThenPos Then Else, ls =>
    let r := blockBranches (some b) ctxt lstmt ThenPos Then ls
    match r.panic with
    | some m => ⟨.IfStmt n ThenPos r.tree Else, r.ls, some m⟩
    | none =>
      let r1 := elseBranches b ctxt lstmt Else r.ls
      ⟨.IfStmt n ThenPos r.tree r1.tree, r1.ls, r1.panic⟩
  | .ForStmt n BodyPos Body, ls =>
    let r := blockBranches (some b) ⟨some ⟨.ForStmt, n.addr⟩, some n.addr⟩ lstmt BodyPos Body ls
    ⟨.ForStmt n BodyPos r.tree, r.ls, r.panic⟩
  | .SwitchStmt n Body, ls =>
    let r := clauseBranches b ⟨some ⟨.SwitchStmt, n.addr⟩, ctxt.continues⟩ lstmt Body ls
    ⟨.SwitchStmt n r.tree, r.ls, r.panic⟩
  | .SelectStmt n Body, ls =>
    let r := clauseBranches b ⟨some ⟨.SelectStmt, n.addr⟩, ctxt.continues⟩ lstmt Body ls
    ⟨.SelectStmt n r.tree, r.ls, r.panic⟩
  | .Other n, ls => ⟨.Other n, ls, none⟩
/-- The method `ls.blockBranches(parent, ctxt, lstmt, start, body)`: the loop over `body` in
the new block `b = &block{parent, start, lstmt}`; every statement starts with the
variable `lstmt` reset to nil. -/
def blockBranches (parent : Option block) (ctxt : targets) (lstmt : Option LabeledStmtPtr)
    (start : Pos) : List Stmt → labelScope → Walk (List Stmt)
  | [], ls => ⟨[], ls, none⟩
  | stmt :: rest, ls =>
    let r := stmtBranches ⟨parent, start, lstmt⟩ ctxt none stmt ls
    match r.panic with
    | some m => ⟨r.tree :: rest, r.ls, some m⟩
    | none =>
      let r1 := blockBranches parent ctxt lstmt start rest r.ls
      ⟨r.tree :: r1.tree, r1.ls, r1.panic⟩
/-- The `if s.Else != nil` of the `IfStmt` case:
`innerBlock(ctxt, s.Else.Pos(), []Stmt{s.Else})`, the walk of the one-statement
body `[s.Else]` in a new block below `b` (see `blockBranches_singleton`). -/
def elseBranches (b : block) (ctxt : targets) (lstmt : Option LabeledStmtPtr) :
    Option Stmt → labelScope → Walk (Option Stmt)
  | none, ls => ⟨none, ls, none⟩
  | some e, ls =>
    let r := stmtBranches ⟨some b, e.Pos, lstmt⟩ ctxt none e ls
    ⟨some r.tree, r.ls, r.panic⟩
/-- The loop `for _, cc := range s.Body` of the `SwitchStmt` and `SelectStmt`
cases: `innerBlock(inner, cc.Pos(), cc.Body)` for every clause. -/
def clauseBranches (b : block) (inner : targets) (lstmt : Option LabeledStmtPtr) :
    List Clause → labelScope → Walk (List Clause)
  | [], ls => ⟨[], ls, none⟩
  | .mk pos Body :: rest, ls =>
    let r := blockBranches (some b) inner lstmt pos Body ls
    match r.panic with
    | some m => ⟨.mk pos r.tree :: rest, r.ls, some m⟩
    | none =>
      let r1 := clauseBranches b inner lstmt rest r.ls
      ⟨.mk pos r.tree :: r1.tree, r1.ls, r1.panic⟩
end

/-- The loop of `checkBranches` over the label table: an error for every label
that is not used. -/
def unusedLabels (ls : labelScope) : List (String × label) → labelScope
  | [] => ls
  | (_, l) :: rest =>
    if !l.used then
      unusedLabels
        (ls.err l.lstmt.Label.pos ("label " ++ l.lstmt.Label.Value ++ " defined and not used"))
        rest
    else unusedLabels ls rest

/-- The function `checkBranches(body, errh)`; `body` is `none` for a nil body.  The result
holds the body as the pass leaves it, the errors handed to `errh` in order, and
the panic value if the pass panicked. -/
def checkBranches (body : Option BlockStmt) : Walk (Option BlockStmt) :=
  match body with
  | none => ⟨none, ⟨[], none⟩, none⟩
  | some body =>
    -- scope of all labels in this body
    let r := blockBranches none ⟨none, none⟩ none body.n.pos body.List ⟨[], none⟩
    match r.panic with
    | some m => ⟨some ⟨body.n, r.tree⟩, r.ls, some m⟩
    | none =>
      ⟨some ⟨body.n, r.tree⟩, unusedLabels r.ls (r.ls.labels.getD []), none⟩

/-! ## Branch statements of a body and the statements that enclose them -/

/-- A branch statement of a statement tree, with the statements that enclose it,
innermost first. -/
structure Occurrence where
  encl : List StmtRef
  s : BranchStmt
deriving DecidableEq

mutual
/-- The branch statements in `stmt`, in source order, below the enclosing
statements `encl`.  Every statement kind with nested statement lists is
descended into; `Other` statements hold no branch statement of this body. -/
def Stmt.branches (encl : List StmtRef) : Stmt → List Occurrence
  | .LabeledStmt n _ inner => Stmt.branches (⟨.LabeledStmt, n.addr⟩ :: encl) inner
  | .BranchStmt s => [⟨encl, s⟩]
  | .BlockStmt n List => listBranches (⟨.BlockStmt, n.addr⟩ :: encl) List
  | .IfStmt n _ Then Else =>
    listBranches (⟨.IfStmt, n.addr⟩ :: encl) Then ++ elseBranchesOf (⟨.IfStmt, n.addr⟩ :: encl) Else
  | .ForStmt n _ Body => listBranches (⟨.ForStmt, n.addr⟩ :: encl) Body
  | .SwitchStmt n Body => clauseBranchesOf (⟨.SwitchStmt, n.addr⟩ :: encl) Body
  | .SelectStmt n Body => clauseBranchesOf (⟨.SelectStmt, n.addr⟩ :: encl) Body
  | .Other _ => []
/-- The branch statements in a statement list. -/
def listBranches (encl : List StmtRef) : List Stmt → List Occurrence
  | [] => []
  | stmt :: rest => Stmt.branches encl stmt ++ listBranches encl rest
/-- The branch statements in an optional else branch. -/
def elseBranchesOf (encl : List StmtRef) : Option Stmt → List Occurrence
  | none => []
  | some e => Stmt.branches encl e
/-- The branch statements in the clauses of a switch or select. -/
def clauseBranchesOf (encl : List StmtRef) : List Clause → List Occurrence
  | [] => []
  | .mk _ Body :: rest => listBranches encl Body ++ clauseBranchesOf encl rest
end

/-- The branch statements of a function body (none for a nil body). -/
def bodyBranches : Option BlockStmt → List Occurrence
  | none => []
  | some body => listBranches [] body.List

/-- A statement that an unlabeled `break` can refer to: for, switch or select. -/
def StmtRef.isBreakTarget (r : StmtRef) : Bool :=
  r.kind = .ForStmt || r.kind = .SwitchStmt || r.kind = .SelectStmt

/-- A for statement. -/
def StmtRef.isFor (r : StmtRef) : Bool :=
  r.kind = .ForStmt

/-- The innermost enclosing for, switch or select statement, if there is one. -/
def Occurrence.innermostBreakTarget (o : Occurrence) : Option StmtRef :=
  o.encl.find? StmtRef.isBreakTarget

/-- The innermost enclosing for statement, if there is one. -/
def Occurrence.innermostFor (o : Occurrence) : Option StmtRef :=
  o.encl.find? StmtRef.isFor

/-- A branch statement that breaks the contract of the pass: a `fallthrough`
that carries a label, or a kind other than break, continue and fallthrough. -/
def BranchStmt.isInvalid (s : BranchStmt) : Bool :=
  (s.Tok = ._Fallthrough && s.Label.isSome) ||
    (s.Tok != ._Break && s.Tok != ._Continue && s.Tok != ._Fallthrough)

/-- The branch statements the walk gets past: those in front of the first
invalid one (all of them when none is invalid). -/
def reached (occs : List Occurrence) : List Occurrence :=
  occs.takeWhile (fun o => !o.s.isInvalid)

mutual
/-- The names of the labeled statements in `stmt`, in source order. -/
def Stmt.labelNames : Stmt → List String
  | .LabeledStmt _ Label inner => Label.Value :: Stmt.labelNames inner
  | .BranchStmt _ => []
  | .BlockStmt _ List => listLabelNames List
  | .IfStmt _ _ Then Else => listLabelNames Then ++ elseLabelNames Else
  | .ForStmt _ _ Body => listLabelNames Body
  | .SwitchStmt _ Body => clauseLabelNames Body
  | .SelectStmt _ Body => clauseLabelNames Body
  | .Other _ => []
/-- The names of the labeled statements in a statement list. -/
def listLabelNames : List Stmt → List String
  | [] => []
  | stmt :: rest => Stmt.labelNames stmt ++ listLabelNames rest
/-- The names of the labeled statements in an optional else branch. -/
def elseLabelNames : Option Stmt → List String
  | none => []
  | some e => Stmt.labelNames e
/-- The names of the labeled statements in the clauses of a switch or select. -/
def clauseLabelNames : List Clause → List String
  | [] => []
  | .mk _ Body :: rest => listLabelNames Body ++ clauseLabelNames rest
end

/-- The names of the labeled statements of a function body. -/
def bodyLabelNames : Option BlockStmt → List String
  | none => []
  | some body => listLabelNames body.List

/-! ## The walk, one branch statement at a time

`checkBranches` starts with a nil label table and the walk never calls
`declare`, so the table is nil whenever a branch statement is met.  The
definitions below describe such a walk by the branch statements it meets. -/

/-- The target set the walk carries below the enclosing statements `encl`. -/
def ctxtOf (encl : List StmtRef) : targets :=
  ⟨encl.find? StmtRef.isBreakTarget, (encl.find? StmtRef.isFor).map (fun r => r.addr)⟩

/-- The branch case of the walk, run on one branch statement with a nil label
table and no error reported yet. -/
def Occurrence.step (o : Occurrence) : Walk BranchStmt :=
  branchStmt ⟨none, ⟨0, 0⟩, none⟩ (ctxtOf o.encl) o.s ⟨[], none⟩

/-- The diagnostics the branch case of the walk reports for one branch statement
below the enclosing statements `o.encl`, when the label table is nil. -/
def Occurrence.diagnostics (o : Occurrence) : List Error :=
  o.step.ls.errh

/-- The errors of a walk over the branch statements `occs` with a nil table. -/
def errsOf : List Occurrence → List Error
  | [] => []
  | o :: rest => if o.s.isInvalid then [] else o.step.ls.errh ++ errsOf rest

/-- The branch statements `occs` as a walk with a nil table leaves them. -/
def outOf : List Occurrence → List Occurrence
  | [] => []
  | o :: rest => if o.s.isInvalid then o :: rest else ⟨o.encl, o.step.tree⟩ :: outOf rest

/-- The panic value of a walk over the branch statements `occs`. -/
def panicOf : List Occurrence → Option String
  | [] => none
  | o :: rest => if o.s.isInvalid then some "invalid BranchStmt" else panicOf rest

/-- The walk result `r`, started in scope `ls`, agrees with the description of
the walk by the branch statements `occs` it meets. -/
def Sim {α : Type} (brs : α → List Occurrence) (occs : List Occurrence) (ls : labelScope)
    (r : Walk α) : Prop :=
  r.ls = ⟨ls.errh ++ errsOf occs, none⟩ ∧ r.panic = panicOf occs ∧ brs r.tree = outOf occs

/-! ## Example bodies -/

/-- The body `for { switch { case: break } }`. -/
def exBreakInSwitch : BlockStmt :=
  ⟨⟨1, ⟨1, 1⟩⟩, [.ForStmt ⟨2, ⟨2, 1⟩⟩ ⟨2, 5⟩
    [.SwitchStmt ⟨3, ⟨3, 1⟩⟩ [.mk ⟨4, 1⟩ [.BranchStmt ⟨⟨4, ⟨5, 1⟩⟩, ._Break, none, none⟩]]]]⟩

/-- The body `for { switch { case 1: continue } }`. -/
def exContinueInSwitch : BlockStmt :=
  ⟨⟨1, ⟨1, 1⟩⟩, [.ForStmt ⟨2, ⟨2, 1⟩⟩ ⟨2, 5⟩
    [.SwitchStmt ⟨3, ⟨3, 1⟩⟩ [.mk ⟨4, 1⟩ [.BranchStmt ⟨⟨4, ⟨5, 1⟩⟩, ._Continue, none, none⟩]]]]⟩

/-- The body `break`: a single top-level break. -/
def exBreak : BlockStmt :=
  ⟨⟨1, ⟨1, 1⟩⟩, [.BranchStmt ⟨⟨2, ⟨2, 1⟩⟩, ._Break, none, none⟩]⟩

/-- The body `switch { case: continue }`: a continue with no enclosing for. -/
def exContinue : BlockStmt :=
  ⟨⟨1, ⟨1, 1⟩⟩, [.SwitchStmt ⟨2, ⟨2, 1⟩⟩
    [.mk ⟨3, 1⟩ [.BranchStmt ⟨⟨3, ⟨4, 1⟩⟩, ._Continue, none, none⟩]]]⟩

/-- The body `L: for { break L }`. -/
def exLabeledBreak : BlockStmt :=
  ⟨⟨1, ⟨1, 1⟩⟩, [.LabeledStmt ⟨2, ⟨2, 1⟩⟩ ⟨⟨2, 1⟩, "L"⟩
    (.ForStmt ⟨3, ⟨2, 4⟩⟩ ⟨2, 8⟩ [.BranchStmt ⟨⟨4, ⟨3, 1⟩⟩, ._Break, some ⟨⟨3, 7⟩, "L"⟩, none⟩])]⟩

/-- The body `L: for { }`. -/
def exUnusedLabel : BlockStmt :=
  ⟨⟨1, ⟨1, 1⟩⟩, [.LabeledStmt ⟨2, ⟨2, 1⟩⟩ ⟨⟨2, 1⟩, "L"⟩ (.ForStmt ⟨3, ⟨2, 4⟩⟩ ⟨2, 8⟩ [])]⟩

/-- The body `L: for { break L }` followed by `L: for { }`. -/
def exDuplicateLabel : BlockStmt :=
  ⟨⟨1, ⟨1, 1⟩⟩, [.LabeledStmt ⟨2, ⟨2, 1⟩⟩ ⟨⟨2, 1⟩, "L"⟩
      (.ForStmt ⟨3, ⟨2, 4⟩⟩ ⟨2, 8⟩ [.BranchStmt ⟨⟨4, ⟨3, 1⟩⟩, ._Break, some ⟨⟨3, 7⟩, "L"⟩, none⟩]),
    .LabeledStmt ⟨5, ⟨5, 1⟩⟩ ⟨⟨5, 1⟩, "L"⟩ (.ForStmt ⟨6, ⟨5, 4⟩⟩ ⟨5, 8⟩ [])]⟩

/-- The body `L: if c { break L }`. -/
def exLabeledIf : BlockStmt :=
  ⟨⟨1, ⟨1, 1⟩⟩, [.LabeledStmt ⟨2, ⟨2, 1⟩⟩ ⟨⟨2, 1⟩, "L"⟩
    (.IfStmt ⟨3, ⟨2, 4⟩⟩ ⟨2, 9⟩ [.BranchStmt ⟨⟨4, ⟨3, 1⟩⟩, ._Break, some ⟨⟨3, 7⟩, "L"⟩, none⟩]
      none)]⟩

/-- The body `L: switch { case: continue L }`. -/
def exLabeledSwitch : BlockStmt :=
  ⟨⟨1, ⟨1, 1⟩⟩, [.LabeledStmt ⟨2, ⟨2, 1⟩⟩ ⟨⟨2, 1⟩, "L"⟩
    (.SwitchStmt ⟨3, ⟨2, 4⟩⟩
      [.mk ⟨3, 1⟩ [.BranchStmt ⟨⟨4, ⟨4, 1⟩⟩, ._Continue, some ⟨⟨4, 10⟩, "L"⟩, none⟩]])]⟩

/-- The body `for { break L; continue L }` with no label `L` in the body. -/
def exMissingLabel : BlockStmt :=
  ⟨⟨1, ⟨1, 1⟩⟩, [.ForStmt ⟨2, ⟨2, 1⟩⟩ ⟨2, 5⟩
    [.BranchStmt ⟨⟨3, ⟨3, 1⟩⟩, ._Break, some ⟨⟨3, 7⟩, "L"⟩, none⟩,
     .BranchStmt ⟨⟨4, ⟨4, 1⟩⟩, ._Continue, some ⟨⟨4, 10⟩, "L"⟩, none⟩]]⟩

/-! ## Label tables and block chains -/

/-- The blocks of the chain `b`, `b.parent`, ... from the innermost outward. -/
def chain : Option block → List block
  | none => []
  | some ⟨parent, start, lstmt⟩ => ⟨parent, start, lstmt⟩ :: chain parent

/-- The block has the labeled statement of label `l` as its associated `lstmt`
(pointer equality: the addresses agree). -/
def block.carries (blk : block) (l : label) : Prop :=
  blk.lstmt.map (fun p => p.addr) = some l.lstmt.addr

/-- The names under which the label table holds a record, in table order. -/
def labelScope.names (ls : labelScope) : List String :=
  (ls.labels.getD []).map Prod.fst

/-- The body `goto L` followed by the block `{ L: x }`: a goto into a block. -/
def exGotoIntoBlock : BlockStmt :=
  ⟨⟨1, ⟨1, 1⟩⟩, [.BranchStmt ⟨⟨2, ⟨2, 1⟩⟩, ._Goto, some ⟨⟨2, 6⟩, "L"⟩, none⟩,
    .BlockStmt ⟨3, ⟨3, 1⟩⟩ [.LabeledStmt ⟨4, ⟨4, 1⟩⟩ ⟨⟨4, 1⟩, "L"⟩ (.Other ⟨5, ⟨4, 4⟩⟩)]]⟩

/-- The pointer to a labeled statement `L: for ...` at address 2 with its for
statement at address 3. -/
def exPtrL : LabeledStmtPtr := ⟨2, ⟨⟨2, 1⟩, "L"⟩, some ⟨.ForStmt, 3⟩⟩

/-- The pointer to a second labeled statement `L: for ...` at address 5. -/
def exPtrL2 : LabeledStmtPtr := ⟨5, ⟨⟨5, 1⟩, "L"⟩, some ⟨.ForStmt, 6⟩⟩

/-- The pointer to a labeled statement `M: for ...` at address 7. -/
def exPtrM : LabeledStmtPtr := ⟨7, ⟨⟨7, 1⟩, "M"⟩, some ⟨.ForStmt, 8⟩⟩

/-- A label scope whose table holds `L` and `M`, both unused, and one error. -/
def exScopeLM : labelScope :=
  ⟨[⟨⟨1, 1⟩, "earlier"⟩], some [("L", ⟨none, exPtrL, false⟩), ("M", ⟨none, exPtrM, false⟩)]⟩

/-- The block of the body of the for statement labeled by `exPtrL`, inside the
block of the function body. -/
def exBlockInL : block := ⟨some ⟨none, ⟨1, 1⟩, none⟩, ⟨2, 8⟩, some exPtrL⟩

/-- Two records of label tables name the same label: same name, same block and
same labeled statement; the `used` flags may differ. -/
def recordSame (x y : String × label) : Prop :=
  x.1 = y.1 ∧ x.2.parent = y.2.parent ∧ x.2.lstmt = y.2.lstmt

/-- Two label tables hold the same labels in the same order, whatever the `used`
flags are; a nil table only matches a nil table. -/
def tableSame : Option (List (String × label)) → Option (List (String × label)) → Prop
  | none, none => True
  | some a, some b => List.Forall₂ recordSame a b
  | _, _ => False

/-- The table `after` is the table `before` with some `used` flags raised: the
same labels in the same order, and every label used before is used after. -/
def tableFrame : Option (List (String × label)) → Option (List (String × label)) → Prop
  | none, none => True
  | some a, some b =>
    List.Forall₂ (fun x y => recordSame x y ∧ (x.2.used = true → y.2.used = true)) a b
  | _, _ => False

mutual
/-- The statement with the `Target` of every branch statement in it set to nil:
what is left is the shape of the tree, the statement kinds, the labels, the
positions and the addresses. -/
def Stmt.clearTargets : Stmt → Stmt
  | .LabeledStmt n Label inner => .LabeledStmt n Label (Stmt.clearTargets inner)
  | .BranchStmt s => .BranchStmt { s with Target := none }
  | .BlockStmt n List => .BlockStmt n (listClearTargets List)
  | .IfStmt n ThenPos Then Else =>
    .IfStmt n ThenPos (listClearTargets Then) (elseClearTargets Else)
  | .ForStmt n BodyPos Body => .ForStmt n BodyPos (listClearTargets Body)
  | .SwitchStmt n Body => .SwitchStmt n (clauseClearTargets Body)
  | .SelectStmt n Body => .SelectStmt n (clauseClearTargets Body)
  | .Other n => .Other n
/-- The statement list with every `Target` set to nil. -/
def listClearTargets : List Stmt → List Stmt
  | [] => []
  | stmt :: rest => Stmt.clearTargets stmt :: listClearTargets rest
/-- The optional else branch with every `Target` set to nil. -/
def elseClearTargets : Option Stmt → Option Stmt
  | none => none
  | some e => some (Stmt.clearTargets e)
/-- The clauses with every `Target` set to nil. -/
def clauseClearTargets : List Clause → List Clause
  | [] => []
  | .mk pos Body :: rest => .mk pos (listClearTargets Body) :: clauseClearTargets rest
end

/-- The function body with every `Target` set to nil. -/
def bodyClearTargets : Option BlockStmt → Option BlockStmt
  | none => none
  | some body => some ⟨body.n, listClearTargets body.List⟩

/-- What every function of the walk keeps, whatever the label table is: the
walked statements are the given ones up to `Target` fields, the table is the old
one with some `used` flags raised, and errors are only added at the end. -/
def Frame {α : Type} (clear : α → α) (orig : α) (ls : labelScope) (r : Walk α) : Prop :=
  clear r.tree = clear orig ∧ tableFrame ls.labels r.ls.labels ∧
    ∃ d, r.ls.errh = ls.errh ++ d

/-- The body `for { switch { case: break; fallthrough } }`, in which the
fallthrough already carries a `Target`. -/
def exFallthrough : BlockStmt :=
  ⟨⟨1, ⟨1, 1⟩⟩, [.ForStmt ⟨2, ⟨2, 1⟩⟩ ⟨2, 5⟩
    [.SwitchStmt ⟨3, ⟨3, 1⟩⟩ [.mk ⟨4, 1⟩
      [.BranchStmt ⟨⟨4, ⟨5, 1⟩⟩, ._Break, none, none⟩,
       .BranchStmt ⟨⟨5, ⟨6, 1⟩⟩, ._Fallthrough, none, some ⟨.Other, 9⟩⟩]]]]⟩

/-- The body `break` followed by `for { continue }`: the break is misplaced, the
continue is not. -/
def exBreakThenLoop : BlockStmt :=
  ⟨⟨1, ⟨1, 1⟩⟩, [.BranchStmt ⟨⟨2, ⟨2, 1⟩⟩, ._Break, none, none⟩,
    .ForStmt ⟨3, ⟨3, 1⟩⟩ ⟨3, 5⟩ [.BranchStmt ⟨⟨4, ⟨4, 1⟩⟩, ._Continue, none, none⟩]]⟩

/-- The body `exBreakThenLoop` with a `Target` already present on both branch
statements. -/
def exBreakThenLoopSet : BlockStmt :=
  ⟨⟨1, ⟨1, 1⟩⟩, [.BranchStmt ⟨⟨2, ⟨2, 1⟩⟩, ._Break, none, some ⟨.Other, 9⟩⟩,
    .ForStmt ⟨3, ⟨3, 1⟩⟩ ⟨3, 5⟩
      [.BranchStmt ⟨⟨4, ⟨4, 1⟩⟩, ._Continue, none, some ⟨.Other, 9⟩⟩]]⟩

/-- The branch statement with its `Target` set to nil. -/
def Occurrence.clearTarget (o : Occurrence) : Occurrence :=
  ⟨o.encl, { o.s with Target := none }⟩

/-- Two runs of a function of the walk, started in the scopes `ls` and `ls'`, do
the same: the same walked statements, the same panic, the same errors added, and
label tables that hold the same labels. -/
def Indep {α : Type} (ls ls' : labelScope) (r r' : Walk α) : Prop :=
  r.tree = r'.tree ∧ r.panic = r'.panic ∧ tableSame r.ls.labels r'.ls.labels ∧
    ∃ d, r.ls.errh = ls.errh ++ d ∧ r'.ls.errh = ls'.errh ++ d

/-- The statement `for { break }`. -/
def exLoopWithBreak : Stmt :=
  .ForStmt ⟨2, ⟨2, 1⟩⟩ ⟨2, 5⟩ [.BranchStmt ⟨⟨3, ⟨3, 1⟩⟩, ._Break, none, none⟩]

/-- The statement `break`. -/
def exPlainBreak : Stmt :=
  .BranchStmt ⟨⟨5, ⟨6, 1⟩⟩, ._Break, none, none⟩

/-- The block of a function body: no parent, no associated labeled statement. -/
def exBodyBlock : block := ⟨none, ⟨1, 1⟩, none⟩

/-- The pointer to the labeled statement `A: B: for ...` at address 2; the
statement it labels is the labeled statement `B: for ...` at address 3. -/
def exPtrA : LabeledStmtPtr := ⟨2, ⟨⟨2, 1⟩, "A"⟩, some ⟨.LabeledStmt, 3⟩⟩

/-- The pointer to the labeled statement `B: for ...` at address 3; the statement
it labels is the for statement at address 4. -/
def exPtrB : LabeledStmtPtr := ⟨3, ⟨⟨2, 4⟩, "B"⟩, some ⟨.ForStmt, 4⟩⟩

/-- A label scope whose table holds `A` and `B`, each with its own statement. -/
def exScopeAB : labelScope :=
  ⟨[], some [("A", ⟨some exBodyBlock, exPtrA, false⟩), ("B", ⟨some exBodyBlock, exPtrB, false⟩)]⟩

/-- The statement `A: B: for { break A; break B }`. -/
def exStacked : Stmt :=
  .LabeledStmt ⟨2, ⟨2, 1⟩⟩ ⟨⟨2, 1⟩, "A"⟩ (.LabeledStmt ⟨3, ⟨2, 4⟩⟩ ⟨⟨2, 4⟩, "B"⟩
    (.ForStmt ⟨4, ⟨2, 7⟩⟩ ⟨2, 11⟩
      [.BranchStmt ⟨⟨5, ⟨3, 1⟩⟩, ._Break, some ⟨⟨3, 7⟩, "A"⟩, none⟩,
       .BranchStmt ⟨⟨6, ⟨4, 1⟩⟩, ._Break, some ⟨⟨4, 7⟩, "B"⟩, none⟩]))

/-- The statement `exStacked` after the walk: only `break B` has a `Target`. -/
def exStackedWalked : Stmt :=
  .LabeledStmt ⟨2, ⟨2, 1⟩⟩ ⟨⟨2, 1⟩, "A"⟩ (.LabeledStmt ⟨3, ⟨2, 4⟩⟩ ⟨⟨2, 4⟩, "B"⟩
    (.ForStmt ⟨4, ⟨2, 7⟩⟩ ⟨2, 11⟩
      [.BranchStmt ⟨⟨5, ⟨3, 1⟩⟩, ._Break, some ⟨⟨3, 7⟩, "A"⟩, none⟩,
       .BranchStmt ⟨⟨6, ⟨4, 1⟩⟩, ._Break, some ⟨⟨4, 7⟩, "B"⟩, some ⟨.ForStmt, 4⟩⟩]))

/-! ## The walk agrees with its description by branch statements -/

theorem errsOf_cons (o : Occurrence) (rest : List Occurrence) :
    errsOf (o :: rest) = if o.s.isInvalid then [] else o.step.ls.errh ++ errsOf rest := rfl

theorem outOf_cons (o : Occurrence) (rest : List Occurrence) :
    outOf (o :: rest) =
      if o.s.isInvalid then o :: rest else ⟨o.encl, o.step.tree⟩ :: outOf rest := rfl

theorem panicOf_cons (o : Occurrence) (rest : List Occurrence) :
    panicOf (o :: rest) =
      if o.s.isInvalid then some "invalid BranchStmt" else panicOf rest := rfl

theorem panicOf_append (xs ys : List Occurrence) :
    panicOf (xs ++ ys) = match panicOf xs with
      | some m => some m
      | none => panicOf ys := by
  induction xs with
  | nil => simp [panicOf]
  | cons o rest ih =>
    by_cases h : o.s.isInvalid <;> simp [panicOf, h, ih]

theorem errsOf_append (xs ys : List Occurrence) :
    errsOf (xs ++ ys) = match panicOf xs with
      | some _ => errsOf xs
      | none => errsOf xs ++ errsOf ys := by
  induction xs with
  | nil => simp [panicOf, errsOf]
  | cons o rest ih =>
    by_cases h : o.s.isInvalid
    · simp [panicOf, errsOf, h]
    · simp only [List.cons_append, panicOf_cons, errsOf_cons, h, if_false]
      rw [ih]
      cases panicOf rest <;> simp

theorem outOf_append (xs ys : List Occurrence) :
    outOf (xs ++ ys) = match panicOf xs with
      | some _ => outOf xs ++ ys
      | none => outOf xs ++ outOf ys := by
  induction xs with
  | nil => simp [panicOf, outOf]
  | cons o rest ih =>
    by_cases h : o.s.isInvalid
    · simp [panicOf, outOf, h]
    · simp only [List.cons_append, panicOf_cons, outOf_cons, h, if_false]
      rw [ih]
      cases panicOf rest <;> simp

theorem branchStmt_nolabels (b : block) (encl : List StmtRef) (s : BranchStmt)
    (ls : labelScope) (h : ls.labels = none) :
    branchStmt b (ctxtOf encl) s ls =
      ⟨(Occurrence.step ⟨encl, s⟩).tree, ⟨ls.errh ++ (Occurrence.step ⟨encl, s⟩).ls.errh, none⟩,
        if s.isInvalid then some "invalid BranchStmt" else none⟩ := by
  obtain ⟨errh, labels⟩ := ls
  simp only at h
  subst h
  obtain ⟨n, Tok, Label, Target⟩ := s
  cases Label <;> cases Tok <;>
    simp [branchStmt, Occurrence.step, BranchStmt.isInvalid, labelScope.enclosingTarget,
      labelScope.lookup, labelScope.err] <;>
    first
      | done
      | (cases (ctxtOf encl).breaks <;> simp)
      | (cases (ctxtOf encl).continues <;> simp)

theorem ctxtOf_cons_skip (r : StmtRef) (encl : List StmtRef)
    (h1 : r.kind ≠ .ForStmt) (h2 : r.kind ≠ .SwitchStmt) (h3 : r.kind ≠ .SelectStmt) :
    ctxtOf (r :: encl) = ctxtOf encl := by
  simp [ctxtOf, List.find?_cons, StmtRef.isBreakTarget, StmtRef.isFor, h1, h2, h3]

theorem ctxtOf_cons_for (a : Nat) (encl : List StmtRef) :
    ctxtOf (⟨.ForStmt, a⟩ :: encl) = ⟨some ⟨.ForStmt, a⟩, some a⟩ := by
  simp [ctxtOf, List.find?_cons, StmtRef.isBreakTarget, StmtRef.isFor]

theorem ctxtOf_cons_switch (a : Nat) (encl : List StmtRef) :
    ctxtOf (⟨.SwitchStmt, a⟩ :: encl) = ⟨some ⟨.SwitchStmt, a⟩, (ctxtOf encl).continues⟩ := by
  simp [ctxtOf, List.find?_cons, StmtRef.isBreakTarget, StmtRef.isFor]

theorem ctxtOf_cons_select (a : Nat) (encl : List StmtRef) :
    ctxtOf (⟨.SelectStmt, a⟩ :: encl) = ⟨some ⟨.SelectStmt, a⟩, (ctxtOf encl).continues⟩ := by
  simp [ctxtOf, List.find?_cons, StmtRef.isBreakTarget, StmtRef.isFor]

/-- Sequencing two walks: the second runs only when the first did not panic. -/
theorem Sim.seq {α β γ : Type} {f : α → List Occurrence} {g : β → List Occurrence}
    {h : γ → List Occurrence} {xs ys : List Occurrence} {ls : labelScope}
    {r1 : Walk α} {r2 : Walk β} (c : α → β → γ) (b0 : β)
    (h1 : Sim f xs ls r1) (h2 : Sim g ys r1.ls r2)
    (hc : ∀ a b, h (c a b) = f a ++ g b) (hb : g b0 = ys) :
    Sim h (xs ++ ys) ls
      (match r1.panic with
       | some m => ⟨c r1.tree b0, r1.ls, some m⟩
       | none => ⟨c r1.tree r2.tree, r2.ls, r2.panic⟩) := by
  obtain ⟨e1, p1, t1⟩ := h1
  obtain ⟨e2, p2, t2⟩ := h2
  unfold Sim
  rw [errsOf_append, panicOf_append, outOf_append, ← p1]
  cases hp : r1.panic with
  | some m => simp [hc, hb, t1, e1]
  | none => simp [hc, t1, t2, e2, e1, p2, List.append_assoc]

/-- Wrapping the walked statements into their parent node. -/
theorem Sim.wrap {α β : Type} {f : α → List Occurrence} {g : β → List Occurrence}
    {xs : List Occurrence} {ls : labelScope} {r : Walk α} (c : α → β)
    (h1 : Sim f xs ls r) (hc : ∀ a, g (c a) = f a) :
    Sim g xs ls ⟨c r.tree, r.ls, r.panic⟩ := by
  obtain ⟨e1, p1, t1⟩ := h1
  exact ⟨e1, p1, by simp [hc, t1]⟩

theorem Sim.labels {α : Type} {f : α → List Occurrence} {xs : List Occurrence}
    {ls : labelScope} {r : Walk α} (h : Sim f xs ls r) : r.ls.labels = none := by
  rw [h.1]

theorem step_invalid (encl : List StmtRef) (s : BranchStmt) (h : s.isInvalid = true) :
    (Occurrence.step ⟨encl, s⟩).ls.errh = [] ∧ (Occurrence.step ⟨encl, s⟩).tree = s := by
  obtain ⟨n, Tok, Label, Target⟩ := s
  cases Label <;> cases Tok <;>
    simp_all [branchStmt, Occurrence.step, BranchStmt.isInvalid]

mutual
theorem stmtBranches_sim : ∀ (stmt : Stmt) (b : block) (lstmt : Option LabeledStmtPtr)
    (encl : List StmtRef) (ls : labelScope), ls.labels = none →
    Sim (Stmt.branches encl) (Stmt.branches encl stmt) ls
      (stmtBranches b (ctxtOf encl) lstmt stmt ls)
  | .LabeledStmt n Label inner, b, lstmt, encl, ls, h => by
    have ih := stmtBranches_sim inner b
      (if Label.Value ≠ "_" then some ⟨n.addr, Label, some inner.ref⟩ else lstmt)
      (⟨.LabeledStmt, n.addr⟩ :: encl) ls h
    rw [ctxtOf_cons_skip _ _ (by simp) (by simp) (by simp)] at ih
    simp only [stmtBranches, Stmt.branches]
    exact Sim.wrap (Stmt.LabeledStmt n Label) ih (fun a => by simp [Stmt.branches])
  | .BranchStmt s, b, lstmt, encl, ls, h => by
    simp only [stmtBranches, Stmt.branches, branchStmt_nolabels b encl s ls h]
    by_cases hi : s.isInvalid
    · simp [Sim, errsOf, panicOf, outOf, hi, Stmt.branches, step_invalid encl s hi]
    · simp [Sim, errsOf, panicOf, outOf, hi, Stmt.branches]
  | .BlockStmt n l, b, lstmt, encl, ls, h => by
    have ih := blockBranches_sim l (some b) lstmt n.pos (⟨.BlockStmt, n.addr⟩ :: encl) ls h
    rw [ctxtOf_cons_skip _ _ (by simp) (by simp) (by simp)] at ih
    simp only [stmtBranches, Stmt.branches]
    exact Sim.wrap (Stmt.BlockStmt n) ih (fun a => by simp [Stmt.branches])
  | .IfStmt n ThenPos Then Else, b, lstmt, encl, ls, h => by
    have ih1 := blockBranches_sim Then (some b) lstmt ThenPos (⟨.IfStmt, n.addr⟩ :: encl) ls h
    rw [ctxtOf_cons_skip _ _ (by simp) (by simp) (by simp)] at ih1
    have ih2 := elseBranches_sim Else b lstmt (⟨.IfStmt, n.addr⟩ :: encl) _ ih1.labels
    rw [ctxtOf_cons_skip _ _ (by simp) (by simp) (by simp)] at ih2
    simp only [stmtBranches, Stmt.branches]
    exact Sim.seq (Stmt.IfStmt n ThenPos) Else ih1 ih2 (fun a b => by simp [Stmt.branches]) rfl
  | .ForStmt n BodyPos Body, b, lstmt, encl, ls, h => by
    have ih := blockBranches_sim Body (some b) lstmt BodyPos (⟨.ForStmt, n.addr⟩ :: encl) ls h
    rw [ctxtOf_cons_for] at ih
    simp only [stmtBranches, Stmt.branches]
    exact Sim.wrap (Stmt.ForStmt n BodyPos) ih (fun a => by simp [Stmt.branches])
  | .SwitchStmt n Body, b, lstmt, encl, ls, h => by
    have ih := clauseBranches_sim Body b lstmt (⟨.SwitchStmt, n.addr⟩ :: encl) ls h
    rw [ctxtOf_cons_switch] at ih
    simp only [stmtBranches, Stmt.branches]
    exact Sim.wrap (Stmt.SwitchStmt n) ih (fun a => by simp [Stmt.branches])
  | .SelectStmt n Body, b, lstmt, encl, ls, h => by
    have ih := clauseBranches_sim Body b lstmt (⟨.SelectStmt, n.addr⟩ :: encl) ls h
    rw [ctxtOf_cons_select] at ih
    simp only [stmtBranches, Stmt.branches]
    exact Sim.wrap (Stmt.SelectStmt n) ih (fun a => by simp [Stmt.branches])
  | .Other n, b, lstmt, encl, ls, h => by
    obtain ⟨errh, labels⟩ := ls
    simp only at h
    subst h
    simp [stmtBranches, Stmt.branches, Sim, errsOf, panicOf, outOf]
theorem blockBranches_sim : ∀ (body : List Stmt) (parent : Option block)
    (lstmt : Option LabeledStmtPtr) (start : Pos) (encl : List StmtRef) (ls : labelScope),
    ls.labels = none →
    Sim (listBranches encl) (listBranches encl body) ls
      (blockBranches parent (ctxtOf encl) lstmt start body ls)
  | [], parent, lstmt, start, encl, ls, h => by
    obtain ⟨errh, labels⟩ := ls
    simp only at h
    subst h
    simp [blockBranches, listBranches, Sim, errsOf, panicOf, outOf]
  | stmt :: rest, parent, lstmt, start, encl, ls, h => by
    have ih1 := stmtBranches_sim stmt ⟨parent, start, lstmt⟩ none encl ls h
    have ih2 := blockBranches_sim rest parent lstmt start encl _ ih1.labels
    simp only [blockBranches, listBranches]
    exact Sim.seq List.cons rest ih1 ih2 (fun a b => by simp [listBranches]) rfl
theorem elseBranches_sim : ∀ (els : Option Stmt) (b : block)
    (lstmt : Option LabeledStmtPtr) (encl : List StmtRef) (ls : labelScope),
    ls.labels = none →
    Sim (elseBranchesOf encl) (elseBranchesOf encl els) ls
      (elseBranches b (ctxtOf encl) lstmt els ls)
  | none, b, lstmt, encl, ls, h => by
    obtain ⟨errh, labels⟩ := ls
    simp only at h
    subst h
    simp [elseBranches, elseBranchesOf, Sim, errsOf, panicOf, outOf]
  | some e, b, lstmt, encl, ls, h => by
    have ih := stmtBranches_sim e ⟨some b, e.Pos, lstmt⟩ none encl ls h
    simp only [elseBranches, elseBranchesOf]
    exact Sim.wrap some ih (fun a => by simp [elseBranchesOf])
theorem clauseBranches_sim : ∀ (body : List Clause) (b : block)
    (lstmt : Option LabeledStmtPtr) (encl : List StmtRef) (ls : labelScope),
    ls.labels = none →
    Sim (clauseBranchesOf encl) (clauseBranchesOf encl body) ls
      (clauseBranches b (ctxtOf encl) lstmt body ls)
  | [], b, lstmt, encl, ls, h => by
    obtain ⟨errh, labels⟩ := ls
    simp only at h
    subst h
    simp [clauseBranches, clauseBranchesOf, Sim, errsOf, panicOf, outOf]
  | .mk pos Body :: rest, b, lstmt, encl, ls, h => by
    have ih1 := blockBranches_sim Body (some b) lstmt pos encl ls h
    have ih2 := clauseBranches_sim rest b lstmt encl _ ih1.labels
    simp only [clauseBranches, clauseBranchesOf]
    exact Sim.seq (fun a r => Clause.mk pos a :: r) rest ih1 ih2
      (fun a b => by simp [clauseBranchesOf]) rfl
end

theorem reached_cons (o : Occurrence) (rest : List Occurrence) :
    reached (o :: rest) = if o.s.isInvalid then [] else o :: reached rest := by
  by_cases h : o.s.isInvalid <;> simp [reached, List.takeWhile_cons, h]

theorem errsOf_eq (occs : List Occurrence) :
    errsOf occs = (reached occs).flatMap Occurrence.diagnostics := by
  induction occs with
  | nil => simp [errsOf, reached]
  | cons o rest ih =>
    by_cases h : o.s.isInvalid <;>
      simp [errsOf_cons, reached_cons, h, ih, Occurrence.diagnostics]

theorem panicOf_eq_none (occs : List Occurrence) :
    panicOf occs = none ↔ ∀ o ∈ occs, o.s.isInvalid = false := by
  induction occs with
  | nil => simp [panicOf]
  | cons o rest ih =>
    by_cases h : o.s.isInvalid <;> simp [panicOf_cons, h, ih]

theorem panicOf_cases (occs : List Occurrence) :
    panicOf occs = none ∨ panicOf occs = some "invalid BranchStmt" := by
  induction occs with
  | nil => simp [panicOf]
  | cons o rest ih =>
    by_cases h : o.s.isInvalid <;> simp [panicOf_cons, h, ih]

/-- The walk over `occs` at the `i`-th branch statement it reaches. -/
theorem walk_at (occs : List Occurrence) :
    ∀ (i : Nat) (o : Occurrence), (reached occs)[i]? = some o →
      (outOf occs)[i]? = some ⟨o.encl, o.step.tree⟩ ∧
      errsOf occs = ((reached occs).take i).flatMap Occurrence.diagnostics ++
        o.diagnostics ++ ((reached occs).drop (i + 1)).flatMap Occurrence.diagnostics := by
  induction occs with
  | nil => intro i o h; simp [reached] at h
  | cons x rest ih =>
    intro i o h
    by_cases hx : x.s.isInvalid
    · simp [reached_cons, hx] at h
    · simp only [reached_cons, hx, if_false] at h ⊢
      cases i with
      | zero =>
        replace h : x = o := by simpa using h
        subst h
        simp [outOf_cons, hx, errsOf_eq, reached_cons, Occurrence.diagnostics]
      | succ j =>
        replace h : (reached rest)[j]? = some o := by simpa using h
        obtain ⟨h1, h2⟩ := ih j o h
        simp [outOf_cons, errsOf_cons, hx, h1, h2, Occurrence.diagnostics, List.append_assoc]

theorem ctxtOf_nil : ctxtOf [] = ⟨none, none⟩ := rfl

/-- The whole pass, occurrence by occurrence: the label table stays nil. -/
theorem checkBranches_sim (body : Option BlockStmt) :
    (checkBranches body).ls = ⟨errsOf (bodyBranches body), none⟩ ∧
    (checkBranches body).panic = panicOf (bodyBranches body) ∧
    bodyBranches (checkBranches body).tree = outOf (bodyBranches body) := by
  cases body with
  | none => simp [checkBranches, bodyBranches, errsOf, panicOf, outOf]
  | some body =>
    have h := blockBranches_sim body.List none none body.n.pos [] ⟨[], none⟩ rfl
    rw [ctxtOf_nil] at h
    obtain ⟨e, p, t⟩ := h
    simp only [checkBranches, bodyBranches]
    cases hp : (blockBranches none ⟨none, none⟩ none body.n.pos body.List ⟨[], none⟩).panic with
    | some m =>
      rw [hp] at p
      simp [e, t, ← p, bodyBranches]
    | none =>
      rw [hp] at p
      simp [e, t, ← p, bodyBranches, unusedLabels]

/-- The pass at the `i`-th branch statement it reaches. -/
theorem checkBranches_at (body : Option BlockStmt) (i : Nat) (o : Occurrence)
    (h : (reached (bodyBranches body))[i]? = some o) :
    (bodyBranches (checkBranches body).tree)[i]? = some ⟨o.encl, o.step.tree⟩ ∧
    (checkBranches body).ls.errh =
      ((reached (bodyBranches body)).take i).flatMap Occurrence.diagnostics ++
        o.diagnostics ++
        ((reached (bodyBranches body)).drop (i + 1)).flatMap Occurrence.diagnostics := by
  obtain ⟨e, _, t⟩ := checkBranches_sim body
  obtain ⟨h1, h2⟩ := walk_at (bodyBranches body) i o h
  rw [t, e]
  exact ⟨h1, h2⟩

/-- The walk of the one-statement body `[e]` that the `IfStmt` case starts for an
else branch is what `elseBranches` computes. -/
theorem blockBranches_singleton (b : block) (ctxt : targets) (lstmt : Option LabeledStmtPtr)
    (e : Stmt) (ls : labelScope) :
    blockBranches (some b) ctxt lstmt e.Pos [e] ls =
      ⟨((elseBranches b ctxt lstmt (some e) ls).tree).toList,
        (elseBranches b ctxt lstmt (some e) ls).ls,
        (elseBranches b ctxt lstmt (some e) ls).panic⟩ := by
  simp only [blockBranches, elseBranches]
  cases h : (stmtBranches ⟨some b, e.Pos, lstmt⟩ ctxt none e ls).panic <;> simp

/-! ## Single branch statements -/

theorem step_unlabeled_break_some (o : Occurrence) (t : StmtRef)
    (hl : o.s.Label = none) (ht : o.s.Tok = token._Break)
    (he : o.innermostBreakTarget = some t) :
    o.step.tree = { o.s with Target := some t } ∧ o.diagnostics = [] := by
  obtain ⟨encl, ⟨n, Tok, Label, Target⟩⟩ := o
  simp only at hl ht
  subst hl ht
  simp only [Occurrence.innermostBreakTarget] at he
  simp [Occurrence.diagnostics, Occurrence.step, branchStmt, ctxtOf, he]

theorem step_unlabeled_break_none (o : Occurrence)
    (hl : o.s.Label = none) (ht : o.s.Tok = token._Break)
    (he : o.innermostBreakTarget = none) :
    o.step.tree = o.s ∧
      o.diagnostics = [⟨o.s.n.pos, "break is not in a loop, switch, or select"⟩] := by
  obtain ⟨encl, ⟨n, Tok, Label, Target⟩⟩ := o
  simp only at hl ht
  subst hl ht
  simp only [Occurrence.innermostBreakTarget] at he
  simp [Occurrence.diagnostics, Occurrence.step, branchStmt, ctxtOf, he, labelScope.err]

theorem step_unlabeled_continue_some (o : Occurrence) (t : StmtRef)
    (hl : o.s.Label = none) (ht : o.s.Tok = token._Continue)
    (he : o.innermostFor = some t) :
    o.step.tree = { o.s with Target := some t } ∧ o.diagnostics = [] := by
  obtain ⟨encl, ⟨n, Tok, Label, Target⟩⟩ := o
  simp only at hl ht
  subst hl ht
  simp only [Occurrence.innermostFor] at he
  have hk : t.kind = .ForStmt := by
    have := List.find?_some he
    simpa [StmtRef.isFor] using this
  obtain ⟨k, a⟩ := t
  simp only at hk
  subst hk
  simp [Occurrence.diagnostics, Occurrence.step, branchStmt, ctxtOf, he]

theorem step_unlabeled_continue_none (o : Occurrence)
    (hl : o.s.Label = none) (ht : o.s.Tok = token._Continue)
    (he : o.innermostFor = none) :
    o.step.tree = o.s ∧ o.diagnostics = [⟨o.s.n.pos, "continue is not in a loop"⟩] := by
  obtain ⟨encl, ⟨n, Tok, Label, Target⟩⟩ := o
  simp only at hl ht
  subst hl ht
  simp only [Occurrence.innermostFor] at he
  simp [Occurrence.diagnostics, Occurrence.step, branchStmt, ctxtOf, he, labelScope.err]

theorem step_labeled_break (o : Occurrence) (lbl : Name)
    (hl : o.s.Label = some lbl) (ht : o.s.Tok = token._Break) :
    o.step.tree = o.s ∧
      o.diagnostics = [⟨lbl.pos, "break label not defined: " ++ lbl.Value⟩] := by
  obtain ⟨encl, ⟨n, Tok, Label, Target⟩⟩ := o
  simp only at hl ht
  subst hl ht
  simp [Occurrence.diagnostics, Occurrence.step, branchStmt, labelScope.enclosingTarget,
    labelScope.lookup, labelScope.err]

theorem step_labeled_continue (o : Occurrence) (lbl : Name)
    (hl : o.s.Label = some lbl) (ht : o.s.Tok = token._Continue) :
    o.step.tree = o.s ∧
      o.diagnostics = [⟨lbl.pos, "continue label not defined: " ++ lbl.Value⟩] := by
  obtain ⟨encl, ⟨n, Tok, Label, Target⟩⟩ := o
  simp only at hl ht
  subst hl ht
  simp [Occurrence.diagnostics, Occurrence.step, branchStmt, labelScope.enclosingTarget,
    labelScope.lookup, labelScope.err]

/-! ## Unlabeled break and continue -/

/-- C1: an unlabeled `break` that the walk reaches inside at least one for, switch
or select statement gets no diagnostic and has its `Target` set to the innermost
enclosing for, switch or select statement.  For the `i`-th branch statement `o`
the walk reaches: after `checkBranches` the `i`-th branch statement of the body
is `o` with `Target` set to that statement, and the errors reported are those of
the branch statements reached before `o` followed by those of the branch
statements reached after `o`. -/
theorem unlabeled_break_targets_innermost (body : Option BlockStmt) (i : Nat)
    (o : Occurrence) (t : StmtRef)
    (hreach : (reached (bodyBranches body))[i]? = some o)
    (hlabel : o.s.Label = none) (htok : o.s.Tok = token._Break)
    (hencl : o.innermostBreakTarget = some t) :
    (bodyBranches (checkBranches body).tree)[i]? =
        some ⟨o.encl, { o.s with Target := some t }⟩ ∧
      (checkBranches body).ls.errh =
        ((reached (bodyBranches body)).take i).flatMap Occurrence.diagnostics ++
          ((reached (bodyBranches body)).drop (i + 1)).flatMap Occurrence.diagnostics := by
  obtain ⟨h1, h2⟩ := checkBranches_at body i o hreach
  obtain ⟨h3, h4⟩ := step_unlabeled_break_some o t hlabel htok hencl
  rw [h3] at h1
  rw [h4] at h2
  exact ⟨h1, by simpa using h2⟩

/-- C1 on `for { switch { case: break } }`: the break gets the `SwitchStmt`, not
the loop, and nothing is reported. -/
theorem unlabeled_break_targets_innermost_witness :
    (reached (bodyBranches (some exBreakInSwitch)))[0]? =
        some ⟨[⟨.SwitchStmt, 3⟩, ⟨.ForStmt, 2⟩], ⟨⟨4, ⟨5, 1⟩⟩, ._Break, none, none⟩⟩ ∧
      (bodyBranches (checkBranches (some exBreakInSwitch)).tree)[0]? =
        some ⟨[⟨.SwitchStmt, 3⟩, ⟨.ForStmt, 2⟩],
          ⟨⟨4, ⟨5, 1⟩⟩, ._Break, none, some ⟨.SwitchStmt, 3⟩⟩⟩ ∧
      (checkBranches (some exBreakInSwitch)).ls.errh = [] :=
  have h := unlabeled_break_targets_innermost (some exBreakInSwitch) 0
    ⟨[⟨.SwitchStmt, 3⟩, ⟨.ForStmt, 2⟩], ⟨⟨4, ⟨5, 1⟩⟩, ._Break, none, none⟩⟩
    ⟨.SwitchStmt, 3⟩ (by decide) rfl rfl (by decide)
  ⟨by decide, h.1, h.2.trans (by decide)⟩

/-- C2: an unlabeled `continue` that the walk reaches inside at least one for
statement gets no diagnostic and has its `Target` set to the innermost enclosing
for statement, whatever switch, select, block, if or labeled statements lie in
between.  For the `i`-th branch statement `o` the walk reaches: after
`checkBranches` the `i`-th branch statement of the body is `o` with `Target` set
to that for statement, and the errors reported are those of the branch
statements reached before `o` followed by those of the ones reached after. -/
theorem unlabeled_continue_targets_innermost_for (body : Option BlockStmt) (i : Nat)
    (o : Occurrence) (t : StmtRef)
    (hreach : (reached (bodyBranches body))[i]? = some o)
    (hlabel : o.s.Label = none) (htok : o.s.Tok = token._Continue)
    (hencl : o.innermostFor = some t) :
    (bodyBranches (checkBranches body).tree)[i]? =
        some ⟨o.encl, { o.s with Target := some t }⟩ ∧
      (checkBranches body).ls.errh =
        ((reached (bodyBranches body)).take i).flatMap Occurrence.diagnostics ++
          ((reached (bodyBranches body)).drop (i + 1)).flatMap Occurrence.diagnostics := by
  obtain ⟨h1, h2⟩ := checkBranches_at body i o hreach
  obtain ⟨h3, h4⟩ := step_unlabeled_continue_some o t hlabel htok hencl
  rw [h3] at h1
  rw [h4] at h2
  exact ⟨h1, by simpa using h2⟩

/-- C2 on `for { switch { case 1: continue } }`: no diagnostics, and the `Target`
of the continue is the `ForStmt`. -/
theorem unlabeled_continue_targets_innermost_for_witness :
    (reached (bodyBranches (some exContinueInSwitch)))[0]? =
        some ⟨[⟨.SwitchStmt, 3⟩, ⟨.ForStmt, 2⟩], ⟨⟨4, ⟨5, 1⟩⟩, ._Continue, none, none⟩⟩ ∧
      (bodyBranches (checkBranches (some exContinueInSwitch)).tree)[0]? =
        some ⟨[⟨.SwitchStmt, 3⟩, ⟨.ForStmt, 2⟩],
          ⟨⟨4, ⟨5, 1⟩⟩, ._Continue, none, some ⟨.ForStmt, 2⟩⟩⟩ ∧
      (checkBranches (some exContinueInSwitch)).ls.errh = [] :=
  have h := unlabeled_continue_targets_innermost_for (some exContinueInSwitch) 0
    ⟨[⟨.SwitchStmt, 3⟩, ⟨.ForStmt, 2⟩], ⟨⟨4, ⟨5, 1⟩⟩, ._Continue, none, none⟩⟩
    ⟨.ForStmt, 2⟩ (by decide) rfl rfl (by decide)
  ⟨by decide, h.1, h.2.trans (by decide)⟩

/-- C3: an unlabeled `break` reached with no enclosing for, switch or select
produces exactly one diagnostic, "break is not in a loop, switch, or select" at
its position, and an unlabeled `continue` reached with no enclosing for produces
exactly one diagnostic, "continue is not in a loop" at its position; in both
cases the branch statement is left as it was (its `Target` is not written).  The
errors reported are those of the branch statements reached before, then that one
diagnostic, then those of the branch statements reached after. -/
theorem misplaced_break_continue_one_diagnostic (body : Option BlockStmt) (i : Nat)
    (o : Occurrence) (hreach : (reached (bodyBranches body))[i]? = some o)
    (hlabel : o.s.Label = none) :
    (o.s.Tok = token._Break → o.innermostBreakTarget = none →
      (bodyBranches (checkBranches body).tree)[i]? = some o ∧
      (checkBranches body).ls.errh =
        ((reached (bodyBranches body)).take i).flatMap Occurrence.diagnostics ++
          [⟨o.s.n.pos, "break is not in a loop, switch, or select"⟩] ++
          ((reached (bodyBranches body)).drop (i + 1)).flatMap Occurrence.diagnostics) ∧
    (o.s.Tok = token._Continue → o.innermostFor = none →
      (bodyBranches (checkBranches body).tree)[i]? = some o ∧
      (checkBranches body).ls.errh =
        ((reached (bodyBranches body)).take i).flatMap Occurrence.diagnostics ++
          [⟨o.s.n.pos, "continue is not in a loop"⟩] ++
          ((reached (bodyBranches body)).drop (i + 1)).flatMap Occurrence.diagnostics) := by
  obtain ⟨h1, h2⟩ := checkBranches_at body i o hreach
  constructor
  · intro htok hencl
    obtain ⟨h3, h4⟩ := step_unlabeled_break_none o hlabel htok hencl
    rw [h3] at h1
    rw [h4] at h2
    exact ⟨h1, h2⟩
  · intro htok hencl
    obtain ⟨h3, h4⟩ := step_unlabeled_continue_none o hlabel htok hencl
    rw [h3] at h1
    rw [h4] at h2
    exact ⟨h1, h2⟩

/-- C3 on the body that is a single top-level `break`: exactly one diagnostic; and
on `switch { case: continue }`: exactly one diagnostic for the continue. -/
theorem misplaced_break_continue_one_diagnostic_witness :
    ((reached (bodyBranches (some exBreak)))[0]? =
        some ⟨[], ⟨⟨2, ⟨2, 1⟩⟩, ._Break, none, none⟩⟩ ∧
      (bodyBranches (checkBranches (some exBreak)).tree)[0]? =
        some ⟨[], ⟨⟨2, ⟨2, 1⟩⟩, ._Break, none, none⟩⟩ ∧
      (checkBranches (some exBreak)).ls.errh =
        [⟨⟨2, 1⟩, "break is not in a loop, switch, or select"⟩]) ∧
    ((reached (bodyBranches (some exContinue)))[0]? =
        some ⟨[⟨.SwitchStmt, 2⟩], ⟨⟨3, ⟨4, 1⟩⟩, ._Continue, none, none⟩⟩ ∧
      (bodyBranches (checkBranches (some exContinue)).tree)[0]? =
        some ⟨[⟨.SwitchStmt, 2⟩], ⟨⟨3, ⟨4, 1⟩⟩, ._Continue, none, none⟩⟩ ∧
      (checkBranches (some exContinue)).ls.errh = [⟨⟨4, 1⟩, "continue is not in a loop"⟩]) :=
  have hb := (misplaced_break_continue_one_diagnostic (some exBreak) 0
    ⟨[], ⟨⟨2, ⟨2, 1⟩⟩, ._Break, none, none⟩⟩ (by decide) rfl).1 rfl (by decide)
  have hc := (misplaced_break_continue_one_diagnostic (some exContinue) 0
    ⟨[⟨.SwitchStmt, 2⟩], ⟨⟨3, ⟨4, 1⟩⟩, ._Continue, none, none⟩⟩ (by decide) rfl).2 rfl
    (by decide)
  ⟨⟨by decide, hb.1, hb.2.trans (by decide)⟩, ⟨by decide, hc.1, hc.2.trans (by decide)⟩⟩

/-! ## Labeled break and continue: the label table is never filled -/

/-- C4: on `L: for { break L }` the pass does not resolve the break: the walk
never declares `L`, so it reports "break label not defined: L" at the label
reference and leaves the `Target` of the break unset. -/
theorem labeled_break_in_labeled_for_not_resolved :
    (checkBranches (some exLabeledBreak)).ls.errh =
        [⟨⟨3, 7⟩, "break label not defined: L"⟩] ∧
      (bodyBranches (checkBranches (some exLabeledBreak)).tree).map (fun o => o.s.Target) =
        [none] ∧
      (checkBranches (some exLabeledBreak)).ls.labels = none ∧
      (checkBranches (some exLabeledBreak)).panic = none :=
  ⟨by decide, by decide, rfl, by decide⟩

/-- C5: on `L: for { }` the pass reports nothing: the walk never declares `L`, the
label table is still nil when the unused labels are looked for, and no "label L
defined and not used" diagnostic is produced. -/
theorem unused_label_not_reported :
    (checkBranches (some exUnusedLabel)).ls.errh = [] ∧
      (checkBranches (some exUnusedLabel)).ls.labels = none ∧
      (checkBranches (some exUnusedLabel)).panic = none :=
  ⟨by decide, rfl, by decide⟩

/-- C6: on `L: for { break L }` followed by `L: for { }` the pass reports no
"label L already defined" diagnostic, and the `break L` inside the first
statement is not resolved: the only diagnostic is "break label not defined: L". -/
theorem duplicate_label_not_reported :
    (checkBranches (some exDuplicateLabel)).ls.errh =
        [⟨⟨3, 7⟩, "break label not defined: L"⟩] ∧
      (bodyBranches (checkBranches (some exDuplicateLabel)).tree).map (fun o => o.s.Target) =
        [none] ∧
      (checkBranches (some exDuplicateLabel)).panic = none := by
  decide

/-- C7: on `L: if c { break L }` the pass reports "break label not defined: L",
not "invalid break label L"; the `Target` of the break stays unset. -/
theorem break_to_labeled_if_reported_undefined :
    (checkBranches (some exLabeledIf)).ls.errh =
        [⟨⟨3, 7⟩, "break label not defined: L"⟩] ∧
      (bodyBranches (checkBranches (some exLabeledIf)).tree).map (fun o => o.s.Target) =
        [none] ∧
      (checkBranches (some exLabeledIf)).panic = none := by
  decide

/-- C8: on `L: switch { case: continue L }` the pass reports "continue label not
defined: L", not "invalid continue label L"; the `Target` of the continue stays
unset. -/
theorem continue_to_labeled_switch_reported_undefined :
    (checkBranches (some exLabeledSwitch)).ls.errh =
        [⟨⟨4, 10⟩, "continue label not defined: L"⟩] ∧
      (bodyBranches (checkBranches (some exLabeledSwitch)).tree).map (fun o => o.s.Target) =
        [none] ∧
      (checkBranches (some exLabeledSwitch)).panic = none := by
  decide

/-- C9: in a function body with no labeled statement named `L`, a `break L` the
walk reaches produces exactly one diagnostic, "break label not defined: L", and a
`continue L` exactly one diagnostic, "continue label not defined: L", both at the
position of the label reference, and the branch statement is left as it was (its
`Target` is not written).  The errors reported are those of the branch statements
reached before, then that one diagnostic, then those of the ones reached after. -/
theorem undefined_label_one_diagnostic (body : Option BlockStmt) (i : Nat)
    (o : Occurrence) (lbl : Name)
    (_hnone : lbl.Value ∉ bodyLabelNames body)
    (hreach : (reached (bodyBranches body))[i]? = some o)
    (hlabel : o.s.Label = some lbl) :
    (o.s.Tok = token._Break →
      (bodyBranches (checkBranches body).tree)[i]? = some o ∧
      (checkBranches body).ls.errh =
        ((reached (bodyBranches body)).take i).flatMap Occurrence.diagnostics ++
          [⟨lbl.pos, "break label not defined: " ++ lbl.Value⟩] ++
          ((reached (bodyBranches body)).drop (i + 1)).flatMap Occurrence.diagnostics) ∧
    (o.s.Tok = token._Continue →
      (bodyBranches (checkBranches body).tree)[i]? = some o ∧
      (checkBranches body).ls.errh =
        ((reached (bodyBranches body)).take i).flatMap Occurrence.diagnostics ++
          [⟨lbl.pos, "continue label not defined: " ++ lbl.Value⟩] ++
          ((reached (bodyBranches body)).drop (i + 1)).flatMap Occurrence.diagnostics) := by
  obtain ⟨h1, h2⟩ := checkBranches_at body i o hreach
  constructor
  · intro htok
    obtain ⟨h3, h4⟩ := step_labeled_break o lbl hlabel htok
    rw [h3] at h1
    rw [h4] at h2
    exact ⟨h1, h2⟩
  · intro htok
    obtain ⟨h3, h4⟩ := step_labeled_continue o lbl hlabel htok
    rw [h3] at h1
    rw [h4] at h2
    exact ⟨h1, h2⟩

/-- C9 on `for { break L; continue L }`, a body without a label `L`: one
diagnostic for the break, one for the continue, no `Target` written. -/
theorem undefined_label_one_diagnostic_witness :
    "L" ∉ bodyLabelNames (some exMissingLabel) ∧
      (reached (bodyBranches (some exMissingLabel)))[0]? =
        some ⟨[⟨.ForStmt, 2⟩], ⟨⟨3, ⟨3, 1⟩⟩, ._Break, some ⟨⟨3, 7⟩, "L"⟩, none⟩⟩ ∧
      (reached (bodyBranches (some exMissingLabel)))[1]? =
        some ⟨[⟨.ForStmt, 2⟩], ⟨⟨4, ⟨4, 1⟩⟩, ._Continue, some ⟨⟨4, 10⟩, "L"⟩, none⟩⟩ ∧
      (bodyBranches (checkBranches (some exMissingLabel)).tree)[0]? =
        some ⟨[⟨.ForStmt, 2⟩], ⟨⟨3, ⟨3, 1⟩⟩, ._Break, some ⟨⟨3, 7⟩, "L"⟩, none⟩⟩ ∧
      (bodyBranches (checkBranches (some exMissingLabel)).tree)[1]? =
        some ⟨[⟨.ForStmt, 2⟩], ⟨⟨4, ⟨4, 1⟩⟩, ._Continue, some ⟨⟨4, 10⟩, "L"⟩, none⟩⟩ ∧
      (checkBranches (some exMissingLabel)).ls.errh =
        [⟨⟨3, 7⟩, "break label not defined: L"⟩, ⟨⟨4, 10⟩, "continue label not defined: L"⟩] :=
  have hb := (undefined_label_one_diagnostic (some exMissingLabel) 0
    ⟨[⟨.ForStmt, 2⟩], ⟨⟨3, ⟨3, 1⟩⟩, ._Break, some ⟨⟨3, 7⟩, "L"⟩, none⟩⟩ ⟨⟨3, 7⟩, "L"⟩
    (by decide) (by decide) rfl).1 rfl
  have hc := (undefined_label_one_diagnostic (some exMissingLabel) 1
    ⟨[⟨.ForStmt, 2⟩], ⟨⟨4, ⟨4, 1⟩⟩, ._Continue, some ⟨⟨4, 10⟩, "L"⟩, none⟩⟩ ⟨⟨4, 10⟩, "L"⟩
    (by decide) (by decide) rfl).2 rfl
  ⟨by decide, by decide, by decide, hb.1, hc.1, hb.2.trans (by decide)⟩

/-! ## Panics -/

/-- C10: `checkBranches` panics, with "invalid BranchStmt", exactly when the body
holds a branch statement (in a statement list the walk descends into) that is a
`fallthrough` carrying a label or whose kind is not break, continue or
fallthrough; it returns normally exactly when every branch statement is a break,
a continue or an unlabeled fallthrough; and there is no other outcome. -/
theorem panics_iff_invalid_branch (body : Option BlockStmt) :
    ((checkBranches body).panic = some "invalid BranchStmt" ↔
      ∃ o ∈ bodyBranches body,
        (o.s.Tok = token._Fallthrough ∧ o.s.Label ≠ none) ∨
        (o.s.Tok ≠ token._Break ∧ o.s.Tok ≠ token._Continue ∧
          o.s.Tok ≠ token._Fallthrough)) ∧
    ((checkBranches body).panic = none ↔
      ∀ o ∈ bodyBranches body,
        o.s.Tok = token._Break ∨ o.s.Tok = token._Continue ∨
        (o.s.Tok = token._Fallthrough ∧ o.s.Label = none)) ∧
    ((checkBranches body).panic = none ∨
      (checkBranches body).panic = some "invalid BranchStmt") := by
  obtain ⟨_, hp, _⟩ := checkBranches_sim body
  rw [hp]
  have hinv : ∀ s : BranchStmt, s.isInvalid = true ↔
      ((s.Tok = token._Fallthrough ∧ s.Label ≠ none) ∨
        (s.Tok ≠ token._Break ∧ s.Tok ≠ token._Continue ∧ s.Tok ≠ token._Fallthrough)) := by
    intro s
    obtain ⟨n, Tok, Label, Target⟩ := s
    cases Label <;> cases Tok <;> simp [BranchStmt.isInvalid]
  have hval : ∀ s : BranchStmt, s.isInvalid = false ↔
      (s.Tok = token._Break ∨ s.Tok = token._Continue ∨
        (s.Tok = token._Fallthrough ∧ s.Label = none)) := by
    intro s
    obtain ⟨n, Tok, Label, Target⟩ := s
    cases Label <;> cases Tok <;> simp [BranchStmt.isInvalid]
  have hnone := panicOf_eq_none (bodyBranches body)
  refine ⟨?_, ?_, panicOf_cases _⟩
  · constructor
    · intro h
      by_contra hne
      have hall : ∀ o ∈ bodyBranches body, o.s.isInvalid = false := by
        intro o ho
        by_contra hi
        exact hne ⟨o, ho, (hinv o.s).1 (by simpa using hi)⟩
      rw [hnone.2 hall] at h
      cases h
    · rintro ⟨o, ho, hbad⟩
      rcases panicOf_cases (bodyBranches body) with h | h
      · have := hnone.1 h o ho
        rw [(hinv o.s).2 hbad] at this
        cases this
      · exact h
  · rw [hnone]
    constructor
    · intro h o ho
      exact (hval o.s).1 (h o ho)
    · intro h o ho
      exact (hval o.s).2 (h o ho)

/-! ## Goto -/

/-- C11: on `goto L` followed by `{ L: x }`, a goto that jumps into a block, the
pass does not return normally and reports nothing: the labeled branch case has
no `_Goto` case, so the goto falls into `default` and the pass panics with
"invalid BranchStmt". -/
theorem goto_into_block_panics :
    (checkBranches (some exGotoIntoBlock)).panic = some "invalid BranchStmt" ∧
      (checkBranches (some exGotoIntoBlock)).ls.errh = [] := by
  decide

/-! ## The label table: `declare` and `enclosingTarget` -/

theorem lookup_markUsed_self (name : String) (l : label) :
    ∀ labels : List (String × label), labels.lookup name = some l →
      (markUsed name labels).lookup name = some { l with used := true }
  | [], h => by simp at h
  | (k, l0) :: rest, h => by
    by_cases hk : k = name
    · subst hk
      simp only [List.lookup_cons_self, Option.some.injEq] at h
      subst h
      simp [markUsed]
    · have hne : (name == k) = false := by simpa using fun h => hk h.symm
      simp only [List.lookup_cons, hne] at h
      simp only [markUsed, hk, if_false, List.lookup_cons, hne]
      exact lookup_markUsed_self name l rest h

theorem lookup_markUsed_other (name other : String) (hne : other ≠ name) :
    ∀ labels : List (String × label),
      (markUsed name labels).lookup other = labels.lookup other
  | [] => by simp [markUsed]
  | (k, l0) :: rest => by
    by_cases hk : k = name
    · subst hk
      have : (other == k) = false := by simpa using hne
      simp [markUsed, List.lookup_cons, this]
    · simp only [markUsed, hk, if_false, List.lookup_cons]
      rw [lookup_markUsed_other name other hne rest]

theorem markUsed_names (name : String) :
    ∀ labels : List (String × label),
      (markUsed name labels).map Prod.fst = labels.map Prod.fst
  | [] => by simp [markUsed]
  | (k, l0) :: rest => by
    by_cases hk : k = name
    · simp [markUsed, hk]
    · simp [markUsed, hk, markUsed_names name rest]

theorem lookup_none_not_mem (name : String) :
    ∀ labels : List (String × label), labels.lookup name = none →
      name ∉ labels.map Prod.fst
  | [], _ => by simp
  | (k, l0) :: rest, h => by
    by_cases hk : name = k
    · subst hk
      simp at h
    · have hne : (name == k) = false := by simpa using hk
      simp only [List.lookup_cons, hne] at h
      simp [hk, lookup_none_not_mem name rest h]


/-- C16: `declare(b, s)`.  If the table already holds a label `alt` under the name
of `s`, `declare` reports exactly one error, "label <name> already defined at
<position of alt>", at the position of the label of `s`, returns `alt` and leaves
the table as it is.  Otherwise it reports nothing, returns the new record
`{parent: b, lstmt: s, used: false}`, the table holds that record under the name
of `s`, and every other name is looked up as before.  In both cases a table with
at most one record per name stays so. -/
theorem declare_keeps_first_declaration (ls : labelScope) (b : Option block)
    (s : LabeledStmtPtr) :
    (∀ alt, ls.lookup s.Label.Value = some alt →
      ls.declare b s =
        (alt, ⟨ls.errh ++ [⟨s.Label.pos,
          "label " ++ s.Label.Value ++ " already defined at " ++
            alt.lstmt.Label.pos.String⟩], ls.labels⟩)) ∧
    (ls.lookup s.Label.Value = none →
      (ls.declare b s).1 = ⟨b, s, false⟩ ∧
      (ls.declare b s).2.errh = ls.errh ∧
      (ls.declare b s).2.lookup s.Label.Value = some ⟨b, s, false⟩ ∧
      (ls.declare b s).2.names = ls.names ++ [s.Label.Value] ∧
      ∀ other, other ≠ s.Label.Value →
        (ls.declare b s).2.lookup other = ls.lookup other) ∧
    (ls.names.Nodup → (ls.declare b s).2.names.Nodup) := by
  obtain ⟨errh, labels⟩ := ls
  cases labels with
  | none =>
    refine ⟨?_, ?_, ?_⟩
    · intro alt h
      simp [labelScope.lookup] at h
    · intro _
      refine ⟨rfl, rfl, ?_, ?_, ?_⟩
      · simp [labelScope.declare, labelScope.lookup]
      · simp [labelScope.declare, labelScope.names]
      · intro other hne
        have : (other == s.Label.Value) = false := by simpa using hne
        simp [labelScope.declare, labelScope.lookup, List.lookup_cons, this]
    · intro _
      simp [labelScope.declare, labelScope.names]
  | some labels =>
    cases hl : labels.lookup s.Label.Value with
    | some alt0 =>
      refine ⟨?_, ?_, ?_⟩
      · intro alt h
        simp only [labelScope.lookup, hl, Option.some.injEq] at h
        subst h
        simp [labelScope.declare, hl, labelScope.err]
      · intro h
        simp [labelScope.lookup, hl] at h
      · intro h
        simpa [labelScope.declare, hl, labelScope.err, labelScope.names] using h
    | none =>
      refine ⟨?_, ?_, ?_⟩
      · intro alt h
        simp [labelScope.lookup, hl] at h
      · intro _
        refine ⟨?_, ?_, ?_, ?_, ?_⟩
        · simp [labelScope.declare, hl]
        · simp [labelScope.declare, hl]
        · simp [labelScope.declare, hl, labelScope.lookup, List.lookup_append]
        · simp [labelScope.declare, hl, labelScope.names]
        · intro other hne
          have : (other == s.Label.Value) = false := by simpa using hne
          simp [labelScope.declare, hl, labelScope.lookup, List.lookup_append,
            List.lookup_cons, this]
      · intro h
        have hnot := lookup_none_not_mem s.Label.Value labels hl
        simp only [labelScope.names, Option.getD_some] at h
        simp only [labelScope.declare, hl, labelScope.names, Option.getD_some,
          List.map_append, List.map_cons, List.map_nil]
        rw [List.nodup_append]
        refine ⟨h, by simp, ?_⟩
        intro a ha hb
        simp only [List.mem_singleton] at hb
        subst hb
        exact hnot ha

/-- C16 on a table that holds `L` and `M`: declaring a second `L` reports the
duplicate and returns the first record; declaring a new name `N` inserts it. -/
theorem declare_keeps_first_declaration_witness :
    exScopeLM.lookup exPtrL2.Label.Value = some ⟨none, exPtrL, false⟩ ∧
      exScopeLM.declare none exPtrL2 =
        (⟨none, exPtrL, false⟩, ⟨exScopeLM.errh ++ [⟨exPtrL2.Label.pos,
          "label " ++ exPtrL2.Label.Value ++ " already defined at " ++
            (⟨none, exPtrL, false⟩ : label).lstmt.Label.pos.String⟩], exScopeLM.labels⟩) ∧
      (exScopeLM.declare none exPtrL2).2.errh =
        [⟨⟨1, 1⟩, "earlier"⟩, ⟨⟨5, 1⟩, "label L already defined at 2:1"⟩] ∧
      (exScopeLM.declare none exPtrL2).2.names = ["L", "M"] :=
  ⟨rfl,
    (declare_keeps_first_declaration exScopeLM none exPtrL2).1 ⟨none, exPtrL, false⟩ rfl,
    by decide, by decide⟩


theorem enclosingTarget_loop_found (l : label) :
    ∀ b : Option block, (∃ blk ∈ chain b, blk.carries l) →
      enclosingTarget.loop l b = l.lstmt
  | none, h => by simp [chain] at h
  | some ⟨parent, start, lstmt⟩, h => by
    by_cases hc : lstmt.map (fun p => p.addr) = some l.lstmt.addr
    · simp [enclosingTarget.loop, hc]
    · simp only [enclosingTarget.loop, hc, if_false]
      apply enclosingTarget_loop_found l parent
      obtain ⟨blk, hmem, hcar⟩ := h
      simp only [chain, List.mem_cons] at hmem
      rcases hmem with rfl | hmem
      · exact absurd hcar hc
      · exact ⟨blk, hmem, hcar⟩

theorem enclosingTarget_loop_not_found (l : label) :
    ∀ b : Option block, (¬ ∃ blk ∈ chain b, blk.carries l) →
      enclosingTarget.loop l b = invalid
  | none, _ => by simp [enclosingTarget.loop]
  | some ⟨parent, start, lstmt⟩, h => by
    have hc : ¬ lstmt.map (fun p => p.addr) = some l.lstmt.addr := by
      intro hc
      exact h ⟨⟨parent, start, lstmt⟩, by simp [chain], hc⟩
    simp only [enclosingTarget.loop, hc, if_false]
    apply enclosingTarget_loop_not_found l parent
    rintro ⟨blk, hmem, hcar⟩
    exact h ⟨blk, by simp [chain, hmem], hcar⟩

/-- C17: `enclosingTarget(b, name)` has three outcomes.  It returns nil exactly
when the table has no label `name`, and then leaves the scope as it is.  When the
table holds `l` under `name`, afterwards it holds `l` with `used` set; the result
is the labeled statement of `l` if some block of the chain `b`, `b.parent`, ...
has that statement as its `lstmt`, and the sentinel `invalid` if none has (so,
for a statement other than the sentinel, the result is that statement exactly
when some block of the chain has it).  No other name is looked up differently
afterwards, the names of the table are the same, and no error is reported. -/
theorem enclosingTarget_three_way (ls : labelScope) (b : Option block) (name : String) :
    ((ls.enclosingTarget b name).1 = none ↔ ls.lookup name = none) ∧
    (ls.lookup name = none → (ls.enclosingTarget b name).2 = ls) ∧
    (∀ l, ls.lookup name = some l →
      (ls.enclosingTarget b name).2.lookup name = some { l with used := true } ∧
      ((∃ blk ∈ chain b, blk.carries l) →
        (ls.enclosingTarget b name).1 = some l.lstmt) ∧
      ((¬ ∃ blk ∈ chain b, blk.carries l) →
        (ls.enclosingTarget b name).1 = some invalid) ∧
      (l.lstmt ≠ invalid →
        ((ls.enclosingTarget b name).1 = some l.lstmt ↔ ∃ blk ∈ chain b, blk.carries l))) ∧
    (∀ other, other ≠ name →
      (ls.enclosingTarget b name).2.lookup other = ls.lookup other) ∧
    (ls.enclosingTarget b name).2.names = ls.names ∧
    (ls.enclosingTarget b name).2.errh = ls.errh := by
  obtain ⟨errh, labels⟩ := ls
  cases labels with
  | none =>
    simp [labelScope.enclosingTarget, labelScope.lookup]
  | some labels =>
    cases hl : labels.lookup name with
    | none =>
      simp [labelScope.enclosingTarget, labelScope.lookup, hl]
    | some l0 =>
      refine ⟨?_, ?_, ?_, ?_, ?_, ?_⟩
      · simp [labelScope.enclosingTarget, labelScope.lookup, hl]
      · simp [labelScope.lookup, hl]
      · intro l h
        simp only [labelScope.lookup, hl, Option.some.injEq] at h
        subst h
        have hfound := enclosingTarget_loop_found l0 b
        have hnot := enclosingTarget_loop_not_found l0 b
        refine ⟨?_, ?_, ?_, ?_⟩
        · simpa [labelScope.enclosingTarget, labelScope.lookup, hl] using
            lookup_markUsed_self name l0 labels hl
        · intro h
          simp [labelScope.enclosingTarget, labelScope.lookup, hl, hfound h]
        · intro h
          simp [labelScope.enclosingTarget, labelScope.lookup, hl, hnot h]
        · intro hne
          constructor
          · intro h
            by_contra hno
            simp only [labelScope.enclosingTarget, labelScope.lookup, hl, hnot hno,
              Option.some.injEq] at h
            exact hne h.symm
          · intro h
            simp [labelScope.enclosingTarget, labelScope.lookup, hl, hfound h]
      · intro other hne
        simpa [labelScope.enclosingTarget, labelScope.lookup, hl] using
          lookup_markUsed_other name other hne labels
      · simp [labelScope.enclosingTarget, labelScope.lookup, hl, labelScope.names,
          markUsed_names]
      · simp [labelScope.enclosingTarget, labelScope.lookup, hl]

/-- C17 on a table that holds `L` and `M`: from inside the for statement labeled
`L` the result for `L` is its labeled statement and `L` becomes used; for `M`,
which labels no enclosing block, the result is the sentinel; for an unknown name
the result is nil. -/
theorem enclosingTarget_three_way_witness :
    (exScopeLM.lookup "L" = some ⟨none, exPtrL, false⟩ ∧
      (∃ blk ∈ chain (some exBlockInL), blk.carries ⟨none, exPtrL, false⟩) ∧
      (exScopeLM.enclosingTarget (some exBlockInL) "L").1 = some exPtrL ∧
      (exScopeLM.enclosingTarget (some exBlockInL) "L").2.lookup "L" =
        some ⟨none, exPtrL, true⟩) ∧
    (exScopeLM.lookup "M" = some ⟨none, exPtrM, false⟩ ∧
      (¬ ∃ blk ∈ chain (some exBlockInL), blk.carries ⟨none, exPtrM, false⟩) ∧
      (exScopeLM.enclosingTarget (some exBlockInL) "M").1 = some invalid) ∧
    (exScopeLM.lookup "N" = none ∧
      (exScopeLM.enclosingTarget (some exBlockInL) "N").1 = none) :=
  have hL := (enclosingTarget_three_way exScopeLM (some exBlockInL) "L").2.2.1
    ⟨none, exPtrL, false⟩ rfl
  have hM := (enclosingTarget_three_way exScopeLM (some exBlockInL) "M").2.2.1
    ⟨none, exPtrM, false⟩ rfl
  have hN := (enclosingTarget_three_way exScopeLM (some exBlockInL) "N").1
  have cL : ∃ blk ∈ chain (some exBlockInL), blk.carries ⟨none, exPtrL, false⟩ :=
    ⟨exBlockInL, by simp [chain, exBlockInL], by simp [block.carries, exBlockInL]⟩
  have cM : ¬ ∃ blk ∈ chain (some exBlockInL), blk.carries ⟨none, exPtrM, false⟩ := by
    simp [chain, exBlockInL, block.carries, exPtrL, exPtrM]
  ⟨⟨rfl, cL, hL.2.1 cL, hL.1⟩, ⟨rfl, cM, hM.2.2.1 cM⟩,
    ⟨rfl, hN.2 rfl⟩⟩


/-! ## What the walk keeps, for every label table -/

theorem tableFrame_refl : ∀ t : Option (List (String × label)), tableFrame t t
  | none => trivial
  | some a => by
    simp only [tableFrame]
    induction a with
    | nil => exact List.Forall₂.nil
    | cons x rest ih => exact List.Forall₂.cons ⟨⟨rfl, rfl, rfl⟩, id⟩ ih

theorem tableFrame_trans : ∀ {a b c : Option (List (String × label))},
    tableFrame a b → tableFrame b c → tableFrame a c
  | none, none, none, _, _ => trivial
  | some a, some b, some c, h1, h2 => by
    simp only [tableFrame] at h1 h2 ⊢
    induction h1 generalizing c with
    | nil => cases h2; exact List.Forall₂.nil
    | cons hxy _ ih =>
      cases h2 with
      | cons hyz hrest =>
        exact List.Forall₂.cons
          ⟨⟨hxy.1.1.trans hyz.1.1, hxy.1.2.1.trans hyz.1.2.1, hxy.1.2.2.trans hyz.1.2.2⟩,
            fun h => hyz.2 (hxy.2 h)⟩ (ih _ hrest)
  | none, some _, _, h1, _ => by simp [tableFrame] at h1
  | some _, none, _, h1, _ => by simp [tableFrame] at h1
  | some _, some _, none, _, h2 => by simp [tableFrame] at h2
  | none, none, some _, _, h2 => by simp [tableFrame] at h2

theorem markUsed_frame (name : String) : ∀ labels : List (String × label),
    List.Forall₂ (fun x y => recordSame x y ∧ (x.2.used = true → y.2.used = true))
      labels (markUsed name labels)
  | [] => by simp [markUsed]
  | (k, l) :: rest => by
    by_cases hk : k = name
    · simp only [markUsed, hk, if_true]
      refine List.Forall₂.cons ⟨⟨rfl, rfl, rfl⟩, fun _ => rfl⟩ ?_
      have := tableFrame_refl (some rest)
      simpa [tableFrame] using this
    · simp only [markUsed, hk, if_false]
      exact List.Forall₂.cons ⟨⟨rfl, rfl, rfl⟩, id⟩ (markUsed_frame name rest)

theorem enclosingTarget_frame (ls : labelScope) (b : Option block) (name : String) :
    tableFrame ls.labels (ls.enclosingTarget b name).2.labels ∧
      (ls.enclosingTarget b name).2.errh = ls.errh := by
  obtain ⟨errh, labels⟩ := ls
  cases labels with
  | none => simp [labelScope.enclosingTarget, labelScope.lookup, tableFrame]
  | some labels =>
    cases hl : labels.lookup name with
    | none =>
      simpa [labelScope.enclosingTarget, labelScope.lookup, hl] using
        tableFrame_refl (some labels)
    | some l =>
      simpa [labelScope.enclosingTarget, labelScope.lookup, hl, tableFrame] using
        markUsed_frame name labels

theorem branchStmt_frame (b : block) (ctxt : targets) (s : BranchStmt) (ls : labelScope) :
    Frame (fun s : BranchStmt => { s with Target := none }) s ls (branchStmt b ctxt s ls) := by
  obtain ⟨n, Tok, Label, Target⟩ := s
  cases Label with
  | none =>
    cases Tok <;> simp only [branchStmt]
    · cases ctxt.breaks <;>
        simp [Frame, tableFrame_refl, labelScope.err]
    · cases ctxt.continues <;>
        simp [Frame, tableFrame_refl, labelScope.err]
    all_goals simp [Frame, tableFrame_refl]
  | some lbl =>
    have hf := enclosingTarget_frame ls (some b) lbl.Value
    cases Tok <;> simp only [branchStmt]
    · generalize ls.enclosingTarget (some b) lbl.Value = q at hf
      obtain ⟨t, ls1⟩ := q
      obtain ⟨hf1, hf2⟩ := hf
      simp only at hf1 hf2
      cases t with
      | none => simp [Frame, hf1, hf2, labelScope.err]
      | some t =>
        obtain ⟨ta, tl, ts⟩ := t
        rcases ts with _ | ⟨k, a⟩
        · simp [Frame, hf1, hf2, labelScope.err]
        · cases k <;> simp [Frame, hf1, hf2, labelScope.err]
    · generalize ls.enclosingTarget (some b) lbl.Value = q at hf
      obtain ⟨t, ls1⟩ := q
      obtain ⟨hf1, hf2⟩ := hf
      simp only at hf1 hf2
      cases t with
      | none => simp [Frame, hf1, hf2, labelScope.err]
      | some t =>
        obtain ⟨ta, tl, ts⟩ := t
        rcases ts with _ | ⟨k, a⟩
        · simp [Frame, hf1, hf2, labelScope.err]
        · cases k <;> simp [Frame, hf1, hf2, labelScope.err]
    all_goals simp [Frame, tableFrame_refl]

theorem Frame.wrap_frame {α β : Type} {ca : α → α} {cb : β → β} {a : α} {ls : labelScope}
    {r : Walk α} (c : α → β) (h : Frame ca a ls r)
    (hc : ∀ x y, ca x = ca y → cb (c x) = cb (c y)) :
    Frame cb (c a) ls ⟨c r.tree, r.ls, r.panic⟩ :=
  ⟨hc _ _ h.1, h.2.1, h.2.2⟩

theorem Frame.seq_frame {α β γ : Type} {ca : α → α} {cb : β → β} {cg : γ → γ} {a : α} {b : β}
    {ls : labelScope} {r1 : Walk α} {r2 : Walk β} (c : α → β → γ)
    (h1 : Frame ca a ls r1) (h2 : Frame cb b r1.ls r2)
    (hc : ∀ x y u v, ca x = ca y → cb u = cb v → cg (c x u) = cg (c y v)) :
    Frame cg (c a b) ls
      (match r1.panic with
       | some m => ⟨c r1.tree b, r1.ls, some m⟩
       | none => ⟨c r1.tree r2.tree, r2.ls, r2.panic⟩) := by
  obtain ⟨t1, f1, d1, e1⟩ := h1
  obtain ⟨t2, f2, d2, e2⟩ := h2
  cases r1.panic with
  | some m => exact ⟨hc _ _ _ _ t1 rfl, f1, d1, e1⟩
  | none =>
    refine ⟨hc _ _ _ _ t1 t2, tableFrame_trans f1 f2, d1 ++ d2, ?_⟩
    simp [e2, e1, List.append_assoc]

theorem Frame.nil_frame {α : Type} (clear : α → α) (a : α) (ls : labelScope) :
    Frame clear a ls ⟨a, ls, none⟩ :=
  ⟨rfl, tableFrame_refl _, [], by simp⟩

mutual
theorem stmtBranches_frame : ∀ (stmt : Stmt) (b : block) (ctxt : targets)
    (lstmt : Option LabeledStmtPtr) (ls : labelScope),
    Frame Stmt.clearTargets stmt ls (stmtBranches b ctxt lstmt stmt ls)
  | .LabeledStmt n Label inner, b, ctxt, lstmt, ls => by
    simp only [stmtBranches]
    exact Frame.wrap_frame (Stmt.LabeledStmt n Label) (stmtBranches_frame inner b ctxt _ ls)
      (fun x y h => by simp [Stmt.clearTargets, h])
  | .BranchStmt s, b, ctxt, lstmt, ls => by
    simp only [stmtBranches]
    exact Frame.wrap_frame Stmt.BranchStmt (branchStmt_frame b ctxt s ls)
      (fun x y h => by simpa [Stmt.clearTargets] using h)
  | .BlockStmt n l, b, ctxt, lstmt, ls => by
    simp only [stmtBranches]
    exact Frame.wrap_frame (Stmt.BlockStmt n) (blockBranches_frame l (some b) ctxt lstmt n.pos ls)
      (fun x y h => by simp [Stmt.clearTargets, h])
  | .IfStmt n ThenPos Then Else, b, ctxt, lstmt, ls => by
    simp only [stmtBranches]
    exact Frame.seq_frame (Stmt.IfStmt n ThenPos)
      (blockBranches_frame Then (some b) ctxt lstmt ThenPos ls)
      (elseBranches_frame Else b ctxt lstmt _)
      (fun x y u v h1 h2 => by simp [Stmt.clearTargets, h1, h2])
  | .ForStmt n BodyPos Body, b, ctxt, lstmt, ls => by
    simp only [stmtBranches]
    exact Frame.wrap_frame (Stmt.ForStmt n BodyPos)
      (blockBranches_frame Body (some b) _ lstmt BodyPos ls)
      (fun x y h => by simp [Stmt.clearTargets, h])
  | .SwitchStmt n Body, b, ctxt, lstmt, ls => by
    simp only [stmtBranches]
    exact Frame.wrap_frame (Stmt.SwitchStmt n) (clauseBranches_frame Body b _ lstmt ls)
      (fun x y h => by simp [Stmt.clearTargets, h])
  | .SelectStmt n Body, b, ctxt, lstmt, ls => by
    simp only [stmtBranches]
    exact Frame.wrap_frame (Stmt.SelectStmt n) (clauseBranches_frame Body b _ lstmt ls)
      (fun x y h => by simp [Stmt.clearTargets, h])
  | .Other n, b, ctxt, lstmt, ls => by
    simp only [stmtBranches]
    exact Frame.nil_frame _ _ _
theorem blockBranches_frame : ∀ (body : List Stmt) (parent : Option block) (ctxt : targets)
    (lstmt : Option LabeledStmtPtr) (start : Pos) (ls : labelScope),
    Frame listClearTargets body ls (blockBranches parent ctxt lstmt start body ls)
  | [], parent, ctxt, lstmt, start, ls => by
    simp only [blockBranches]
    exact Frame.nil_frame _ _ _
  | stmt :: rest, parent, ctxt, lstmt, start, ls => by
    simp only [blockBranches]
    exact Frame.seq_frame List.cons (stmtBranches_frame stmt ⟨parent, start, lstmt⟩ ctxt none ls)
      (blockBranches_frame rest parent ctxt lstmt start _)
      (fun x y u v h1 h2 => by simp [listClearTargets, h1, h2])
theorem elseBranches_frame : ∀ (els : Option Stmt) (b : block) (ctxt : targets)
    (lstmt : Option LabeledStmtPtr) (ls : labelScope),
    Frame elseClearTargets els ls (elseBranches b ctxt lstmt els ls)
  | none, b, ctxt, lstmt, ls => by
    simp only [elseBranches]
    exact Frame.nil_frame _ _ _
  | some e, b, ctxt, lstmt, ls => by
    simp only [elseBranches]
    exact Frame.wrap_frame some (stmtBranches_frame e ⟨some b, e.Pos, lstmt⟩ ctxt none ls)
      (fun x y h => by simp [elseClearTargets, h])
theorem clauseBranches_frame : ∀ (body : List Clause) (b : block) (inner : targets)
    (lstmt : Option LabeledStmtPtr) (ls : labelScope),
    Frame clauseClearTargets body ls (clauseBranches b inner lstmt body ls)
  | [], b, inner, lstmt, ls => by
    simp only [clauseBranches]
    exact Frame.nil_frame _ _ _
  | .mk pos Body :: rest, b, inner, lstmt, ls => by
    simp only [clauseBranches]
    exact Frame.seq_frame (fun x r => Clause.mk pos x :: r)
      (blockBranches_frame Body (some b) inner lstmt pos ls)
      (clauseBranches_frame rest b inner lstmt _)
      (fun x y u v h1 h2 => by simp [clauseClearTargets, h1, h2])
end


theorem tableFrame_names : ∀ {a b : Option (List (String × label))}, tableFrame a b →
    (a.getD []).map Prod.fst = (b.getD []).map Prod.fst
  | none, none, _ => rfl
  | some a, some b, h => by
    simp only [tableFrame] at h
    simp only [Option.getD_some]
    induction h with
    | nil => rfl
    | cons hxy _ ih => simp [hxy.1.1, ih]
  | none, some _, h => by simp [tableFrame] at h
  | some _, none, h => by simp [tableFrame] at h

theorem tableFrame_none {b : Option (List (String × label))} (h : tableFrame none b) :
    b = none := by
  cases b with
  | none => rfl
  | some _ => simp [tableFrame] at h

theorem outOf_getElem_cases (occs : List Occurrence) :
    ∀ (i : Nat) (o : Occurrence), occs[i]? = some o →
      (outOf occs)[i]? = some o ∨ (outOf occs)[i]? = some ⟨o.encl, o.step.tree⟩ := by
  induction occs with
  | nil => intro i o h; simp at h
  | cons x rest ih =>
    intro i o h
    by_cases hx : x.s.isInvalid
    · left
      simpa [outOf_cons, hx] using h
    · cases i with
      | zero =>
        replace h : x = o := by simpa using h
        subst h
        right
        simp [outOf_cons, hx]
      | succ j =>
        replace h : rest[j]? = some o := by simpa using h
        simpa [outOf_cons, hx] using ih j o h

theorem step_unlabeled_fallthrough (o : Occurrence)
    (hl : o.s.Label = none) (ht : o.s.Tok = token._Fallthrough) :
    o.step.tree = o.s ∧ o.diagnostics = [] := by
  obtain ⟨encl, ⟨n, Tok, Label, Target⟩⟩ := o
  simp only at hl ht
  subst hl ht
  simp [Occurrence.diagnostics, Occurrence.step, branchStmt]

theorem step_not_break_continue (o : Occurrence)
    (hb : o.s.Tok ≠ token._Break) (hc : o.s.Tok ≠ token._Continue) :
    o.step.tree = o.s := by
  by_cases hi : o.s.isInvalid = true
  · exact (step_invalid o.encl o.s hi).2
  · obtain ⟨encl, ⟨n, Tok, Label, Target⟩⟩ := o
    cases Label <;> cases Tok <;>
      simp_all [BranchStmt.isInvalid, Occurrence.step, branchStmt]

theorem step_labeled (o : Occurrence) (h : o.s.Label ≠ none) : o.step.tree = o.s := by
  by_cases hi : o.s.isInvalid = true
  · exact (step_invalid o.encl o.s hi).2
  · obtain ⟨encl, ⟨n, Tok, Label, Target⟩⟩ := o
    cases Label with
    | none => simp at h
    | some lbl =>
      cases Tok <;>
        simp_all [BranchStmt.isInvalid, Occurrence.step, branchStmt,
          labelScope.enclosingTarget, labelScope.lookup]

/-- The first character of every diagnostic of a walk with a nil label table is
`b` or `c`: the message starts with "break" or with "continue". -/
theorem diagnostics_head (o : Occurrence) :
    ∀ e ∈ o.diagnostics, e.msg.data.head? = some 'b' ∨ e.msg.data.head? = some 'c' := by
  obtain ⟨encl, ⟨n, Tok, Label, Target⟩⟩ := o
  intro e he
  cases Label <;> cases Tok <;>
    simp only [Occurrence.diagnostics, Occurrence.step, branchStmt,
      labelScope.enclosingTarget, labelScope.lookup, labelScope.err] at he
  · cases hb : (ctxtOf encl).breaks <;> simp [hb] at he
    subst he
    left
    rfl
  · cases hb : (ctxtOf encl).continues <;> simp [hb] at he
    subst he
    right
    rfl
  · simp at he
  · simp at he
  · simp at he
  · simp only [List.nil_append, List.mem_singleton] at he
    subst he
    left
    simp only [String.data_append]
    rfl
  · simp only [List.nil_append, List.mem_singleton] at he
    subst he
    right
    simp only [String.data_append]
    rfl
  · simp at he
  · simp at he
  · simp at he


theorem checkBranches_errh_mem (body : Option BlockStmt) :
    ∀ e ∈ (checkBranches body).ls.errh, ∃ o ∈ bodyBranches body, e ∈ o.diagnostics := by
  intro e he
  rw [(checkBranches_sim body).1] at he
  simp only [errsOf_eq, List.mem_flatMap] at he
  obtain ⟨o, ho, hm⟩ := he
  exact ⟨o, (List.takeWhile_sublist _).subset ho, hm⟩

theorem checkBranches_errh_head (body : Option BlockStmt) :
    ∀ e ∈ (checkBranches body).ls.errh,
      e.msg.data.head? = some 'b' ∨ e.msg.data.head? = some 'c' := by
  intro e he
  obtain ⟨o, _, hm⟩ := checkBranches_errh_mem body e he
  exact diagnostics_head o e hm

theorem label_msg_head (name rest : String) :
    ("label " ++ name ++ rest).data.head? = some 'l' := by
  simp only [String.data_append]
  rfl

/-- C18: the walk never adds a label to the label table.  For every label scope,
parent block, target set and statement list, the table after `blockBranches` is
the table before with at most some `used` flags raised: the same names, blocks
and labeled statements in the same order.  So `checkBranches`, which starts from
the nil table, ends with the nil table, reports no "label ... already defined at
..." and no "label ... defined and not used" diagnostic, and leaves every branch
statement that carries a label as it was (it never writes the `Target` of a
labeled break or continue). -/
theorem walk_never_declares_labels :
    (∀ (ls : labelScope) (parent : Option block) (ctxt : targets)
        (lstmt : Option LabeledStmtPtr) (start : Pos) (body : List Stmt),
      tableFrame ls.labels (blockBranches parent ctxt lstmt start body ls).ls.labels ∧
      (blockBranches parent ctxt lstmt start body ls).ls.names = ls.names) ∧
    (∀ body : Option BlockStmt,
      (checkBranches body).ls.labels = none ∧
      (∀ e ∈ (checkBranches body).ls.errh, ∀ name posText : String,
        e.msg ≠ "label " ++ name ++ " already defined at " ++ posText ∧
        e.msg ≠ "label " ++ name ++ " defined and not used") ∧
      (∀ (i : Nat) (o : Occurrence), (bodyBranches body)[i]? = some o →
        o.s.Label ≠ none →
        (bodyBranches (checkBranches body).tree)[i]? = some o)) := by
  constructor
  · intro ls parent ctxt lstmt start body
    have h := (blockBranches_frame body parent ctxt lstmt start ls).2.1
    exact ⟨h, (tableFrame_names h).symm⟩
  · intro body
    refine ⟨?_, ?_, ?_⟩
    · rw [(checkBranches_sim body).1]
    · intro e he name posText
      have hh := checkBranches_errh_head body e he
      constructor
      · intro heq
        have h1 : e.msg.data.head? = some 'l' := by
          rw [heq]
          simp [String.data_append]
        rw [h1] at hh
        rcases hh with h | h <;> simp at h
      · intro heq
        have h1 : e.msg.data.head? = some 'l' := by
          rw [heq]
          exact label_msg_head name " defined and not used"
        rw [h1] at hh
        rcases hh with h | h <;> simp at h
    · intro i o hi hl
      rw [(checkBranches_sim body).2.2]
      rcases outOf_getElem_cases (bodyBranches body) i o hi with h | h
      · exact h
      · rw [h, step_labeled o hl]


/-- C14: `checkBranches` changes nothing in the statement tree except `Target`
fields of break and continue statements.  The body it leaves is the body it was
given up to `Target` fields (same shape, statement kinds, labels, positions);
every branch statement that is neither a break nor a continue is left as it was;
and an unlabeled `fallthrough` the walk reaches is left as it was and adds no
diagnostic: the errors are those of the branch statements reached before it
followed by those of the ones reached after it. -/
theorem only_targets_change (body : Option BlockStmt) :
    bodyClearTargets (checkBranches body).tree = bodyClearTargets body ∧
    (∀ (i : Nat) (o : Occurrence), (bodyBranches body)[i]? = some o →
      o.s.Tok ≠ token._Break → o.s.Tok ≠ token._Continue →
      (bodyBranches (checkBranches body).tree)[i]? = some o) ∧
    (∀ (i : Nat) (o : Occurrence), (reached (bodyBranches body))[i]? = some o →
      o.s.Tok = token._Fallthrough → o.s.Label = none →
      (bodyBranches (checkBranches body).tree)[i]? = some o ∧
      (checkBranches body).ls.errh =
        ((reached (bodyBranches body)).take i).flatMap Occurrence.diagnostics ++
          ((reached (bodyBranches body)).drop (i + 1)).flatMap Occurrence.diagnostics) := by
  refine ⟨?_, ?_, ?_⟩
  · cases body with
    | none => rfl
    | some body =>
      have h := (blockBranches_frame body.List none ⟨none, none⟩ none body.n.pos ⟨[], none⟩).1
      simp only [checkBranches]
      cases (blockBranches none ⟨none, none⟩ none body.n.pos body.List ⟨[], none⟩).panic <;>
        simp [bodyClearTargets, h]
  · intro i o hi hb hc
    rw [(checkBranches_sim body).2.2]
    rcases outOf_getElem_cases (bodyBranches body) i o hi with h | h
    · exact h
    · rw [h, step_not_break_continue o hb hc]
  · intro i o hi ht hl
    obtain ⟨h1, h2⟩ := checkBranches_at body i o hi
    obtain ⟨h3, h4⟩ := step_unlabeled_fallthrough o hl ht
    rw [h3] at h1
    rw [h4] at h2
    exact ⟨h1, by simpa using h2⟩

/-- C14 on `for { switch { case: break; fallthrough } }`: the body is the same up
to `Target` fields, and the fallthrough keeps the `Target` it had and adds no
diagnostic. -/
theorem only_targets_change_witness :
    bodyClearTargets (checkBranches (some exFallthrough)).tree =
        bodyClearTargets (some exFallthrough) ∧
      (reached (bodyBranches (some exFallthrough)))[1]? =
        some ⟨[⟨.SwitchStmt, 3⟩, ⟨.ForStmt, 2⟩],
          ⟨⟨5, ⟨6, 1⟩⟩, ._Fallthrough, none, some ⟨.Other, 9⟩⟩⟩ ∧
      (bodyBranches (checkBranches (some exFallthrough)).tree)[1]? =
        some ⟨[⟨.SwitchStmt, 3⟩, ⟨.ForStmt, 2⟩],
          ⟨⟨5, ⟨6, 1⟩⟩, ._Fallthrough, none, some ⟨.Other, 9⟩⟩⟩ ∧
      (checkBranches (some exFallthrough)).ls.errh = [] :=
  have h := (only_targets_change (some exFallthrough)).2.2 1
    ⟨[⟨.SwitchStmt, 3⟩, ⟨.ForStmt, 2⟩],
      ⟨⟨5, ⟨6, 1⟩⟩, ._Fallthrough, none, some ⟨.Other, 9⟩⟩⟩ (by decide) rfl rfl
  ⟨(only_targets_change (some exFallthrough)).1, by decide, h.1, h.2.trans (by decide)⟩


theorem lookup_eq_none_of_not_mem (name : String) :
    ∀ labels : List (String × label), name ∉ labels.map Prod.fst →
      labels.lookup name = none
  | [], _ => rfl
  | (k, l0) :: rest, h => by
    simp only [List.map_cons, List.mem_cons, not_or] at h
    have hne : (name == k) = false := by simpa using h.1
    simp only [List.lookup_cons, hne]
    exact lookup_eq_none_of_not_mem name rest h.2

theorem labelScope.lookup_eq_none (ls : labelScope) (name : String)
    (h : name ∉ ls.names) : ls.lookup name = none := by
  obtain ⟨errh, labels⟩ := ls
  cases labels with
  | none => rfl
  | some labels =>
    exact lookup_eq_none_of_not_mem name labels (by simpa [labelScope.names] using h)

/-- C15: a blank label is transparent.  For every statement `S`, block, target set
and label scope, the walk of `_: S` is the walk of `S` (with the same current
`lstmt`): the same errors, the same label table, the same panic, and the walked
statement is `_: ` in front of the walked `S`.  The walk enters no name in the
label table, so a table without `_` stays without `_`, `checkBranches` ends with
a table without `_` and reports no "label _ defined and not used" and no "label
_ already defined at ..." diagnostic, and with such a table `break _` reports
"break label not defined: _" at the label reference and is left as it was. -/
theorem blank_label_transparent :
    (∀ (b : block) (ctxt : targets) (lstmt : Option LabeledStmtPtr) (n : node) (pos : Pos)
        (S : Stmt) (ls : labelScope),
      stmtBranches b ctxt lstmt (.LabeledStmt n ⟨pos, "_"⟩ S) ls =
        ⟨.LabeledStmt n ⟨pos, "_"⟩ (stmtBranches b ctxt lstmt S ls).tree,
          (stmtBranches b ctxt lstmt S ls).ls, (stmtBranches b ctxt lstmt S ls).panic⟩) ∧
    (∀ (b : block) (ctxt : targets) (lstmt : Option LabeledStmtPtr) (stmt : Stmt)
        (ls : labelScope),
      "_" ∉ ls.names → "_" ∉ (stmtBranches b ctxt lstmt stmt ls).ls.names) ∧
    (∀ body : Option BlockStmt,
      "_" ∉ (checkBranches body).ls.names ∧
      ∀ e ∈ (checkBranches body).ls.errh,
        e.msg ≠ "label _ defined and not used" ∧
        ∀ posText : String, e.msg ≠ "label _ already defined at " ++ posText) ∧
    (∀ (b : block) (ctxt : targets) (n : node) (pos : Pos) (T : Option StmtRef)
        (ls : labelScope),
      "_" ∉ ls.names →
      branchStmt b ctxt ⟨n, ._Break, some ⟨pos, "_"⟩, T⟩ ls =
        ⟨⟨n, ._Break, some ⟨pos, "_"⟩, T⟩,
          ⟨ls.errh ++ [⟨pos, "break label not defined: _"⟩], ls.labels⟩, none⟩) := by
  refine ⟨?_, ?_, ?_, ?_⟩
  · intro b ctxt lstmt n pos S ls
    simp [stmtBranches]
  · intro b ctxt lstmt stmt ls h
    have hf := (stmtBranches_frame stmt b ctxt lstmt ls).2.1
    have hn := tableFrame_names hf
    simp only [labelScope.names] at h ⊢
    rw [← hn]
    exact h
  · intro body
    constructor
    · simp [labelScope.names, (checkBranches_sim body).1]
    · intro e he
      have hh := checkBranches_errh_head body e he
      constructor
      · intro heq
        rw [heq] at hh
        rcases hh with h | h <;> simp at h
      · intro posText heq
        rw [heq] at hh
        simp only [String.data_append] at hh
        rcases hh with h | h <;> simp at h
  · intro b ctxt n pos T ls h
    have hl := ls.lookup_eq_none "_" h
    simp [branchStmt, labelScope.enclosingTarget, hl, labelScope.err]


/-! ## One diagnostic for every branch statement left unresolved -/

theorem reached_eq_self (occs : List Occurrence) (h : panicOf occs = none) :
    reached occs = occs := by
  have hv := (panicOf_eq_none occs).1 h
  simp only [reached, List.takeWhile_eq_self_iff]
  intro o ho
  simp [hv o ho]

theorem step_cases (o : Occurrence) (hv : o.s.isInvalid = false) :
    (o.s.Tok = token._Fallthrough ∧ o.s.Label = none ∧ o.step.tree = o.s ∧
      o.diagnostics = []) ∨
    ((o.s.Tok = token._Break ∨ o.s.Tok = token._Continue) ∧
      ((∃ t, o.step.tree = { o.s with Target := some t } ∧ o.diagnostics = []) ∨
        (o.step.tree = o.s ∧ ∃ d, o.diagnostics = [d]))) := by
  obtain ⟨encl, ⟨n, Tok, Label, Target⟩⟩ := o
  cases Label <;> cases Tok <;>
    simp_all [BranchStmt.isInvalid, Occurrence.diagnostics, Occurrence.step, branchStmt,
      labelScope.enclosingTarget, labelScope.lookup, labelScope.err]
  · cases (ctxtOf encl).breaks <;> simp
  · cases (ctxtOf encl).continues <;> simp

theorem count_unresolved (occs : List Occurrence)
    (hv : ∀ o ∈ occs, o.s.isInvalid = false) (hf : ∀ o ∈ occs, o.s.Target = none) :
    (errsOf occs).length =
      ((outOf occs).filter (fun o =>
        (o.s.Tok = token._Break ∨ o.s.Tok = token._Continue) ∧ o.s.Target = none)).length := by
  induction occs with
  | nil => simp [errsOf, outOf]
  | cons o rest ih =>
    have hvo := hv o (List.mem_cons_self _ _)
    have hfo := hf o (List.mem_cons_self _ _)
    have ih := ih (fun x hx => hv x (List.mem_cons_of_mem _ hx))
      (fun x hx => hf x (List.mem_cons_of_mem _ hx))
    simp only [errsOf_cons, outOf_cons, hvo, Bool.false_eq_true, if_false,
      List.length_append, List.filter_cons]
    have hd : o.step.ls.errh = o.diagnostics := rfl
    rw [hd, ih]
    rcases step_cases o hvo with ⟨ht, _, h3, h4⟩ | ⟨ht, ⟨t, h3, h4⟩ | ⟨h3, d, h4⟩⟩
    · have h5 : (o.step.tree).Tok = token._Fallthrough := by rw [h3]; exact ht
      simp [h4, h5]
    · simp [h4, h3]
    · have h5 : (o.step.tree).Tok = o.s.Tok := by rw [h3]
      have h6 : (o.step.tree).Target = none := by rw [h3]; exact hfo
      simp [h4, h5, h6, ht]
      omega

/-- C13: diagnostics never stop the walk and there is one for every branch
statement left unresolved.  On a body on which `checkBranches` returns normally,
every break or continue `o` (the `i`-th branch statement of the body) ends in
exactly one of two states: its `Target` is set and the pass has no diagnostic for
it, or it is left as it was and the pass has exactly one diagnostic for it; in
both cases the errors reported are those of the branch statements before `o`,
then those of `o`, then those of the branch statements after `o`.  Hence, when no
`Target` was set before the run, the number of errors reported is the number of
break and continue statements whose `Target` is still unset after the run. -/
theorem one_diagnostic_per_unresolved_branch (body : Option BlockStmt)
    (hnorm : (checkBranches body).panic = none) :
    (∀ (i : Nat) (o : Occurrence), (bodyBranches body)[i]? = some o →
      (o.s.Tok = token._Break ∨ o.s.Tok = token._Continue) →
      (checkBranches body).ls.errh =
        ((bodyBranches body).take i).flatMap Occurrence.diagnostics ++ o.diagnostics ++
          ((bodyBranches body).drop (i + 1)).flatMap Occurrence.diagnostics ∧
      Xor'
        ((∃ t, (bodyBranches (checkBranches body).tree)[i]? =
            some ⟨o.encl, { o.s with Target := some t }⟩) ∧ o.diagnostics = [])
        ((bodyBranches (checkBranches body).tree)[i]? = some o ∧
          ∃ d, o.diagnostics = [d])) ∧
    ((∀ o ∈ bodyBranches body, o.s.Target = none) →
      (checkBranches body).ls.errh.length =
        ((bodyBranches (checkBranches body).tree).filter (fun o =>
          (o.s.Tok = token._Break ∨ o.s.Tok = token._Continue) ∧
            o.s.Target = none)).length) := by
  have hp : panicOf (bodyBranches body) = none := by
    rw [← (checkBranches_sim body).2.1]
    exact hnorm
  have hr := reached_eq_self _ hp
  have hv := (panicOf_eq_none _).1 hp
  constructor
  · intro i o hi ht
    have hi2 : (reached (bodyBranches body))[i]? = some o := by rw [hr]; exact hi
    obtain ⟨h1, h2⟩ := checkBranches_at body i o hi2
    rw [hr] at h2
    refine ⟨h2, ?_⟩
    have hvo := hv o (List.getElem?_mem hi)
    rcases step_cases o hvo with ⟨hf, _⟩ | ⟨_, ⟨t, h3, h4⟩ | ⟨h3, d, h4⟩⟩
    · rcases ht with ht | ht <;> rw [hf] at ht <;> cases ht
    · left
      refine ⟨⟨⟨t, by rw [h1, h3]⟩, h4⟩, ?_⟩
      rintro ⟨_, d, hd⟩
      rw [h4] at hd
      cases hd
    · right
      refine ⟨⟨by rw [h1, h3], d, h4⟩, ?_⟩
      rintro ⟨_, hd⟩
      rw [h4] at hd
      cases hd
  · intro hf
    rw [(checkBranches_sim body).1, (checkBranches_sim body).2.2]
    exact count_unresolved _ hv hf

/-- C13 on `break` followed by `for { continue }`: the pass returns normally, the
continue is resolved, the break is not, and there is one error. -/
theorem one_diagnostic_per_unresolved_branch_witness :
    (checkBranches (some exBreakThenLoop)).panic = none ∧
      (∀ o ∈ bodyBranches (some exBreakThenLoop), o.s.Target = none) ∧
      (checkBranches (some exBreakThenLoop)).ls.errh.length = 1 ∧
      ((bodyBranches (checkBranches (some exBreakThenLoop)).tree).filter (fun o =>
        (o.s.Tok = token._Break ∨ o.s.Tok = token._Continue) ∧
          o.s.Target = none)).length = 1 :=
  have h := (one_diagnostic_per_unresolved_branch (some exBreakThenLoop) (by decide)).2
    (by decide)
  ⟨by decide, by decide, by decide, h.symm.trans (by decide)⟩


/-! ## Running the pass again -/

mutual
theorem Stmt.branches_clearTargets : ∀ (stmt : Stmt) (encl : List StmtRef),
    Stmt.branches encl (Stmt.clearTargets stmt) =
      (Stmt.branches encl stmt).map Occurrence.clearTarget
  | .LabeledStmt n Label inner, encl => by
    simp [Stmt.clearTargets, Stmt.branches, Stmt.branches_clearTargets inner]
  | .BranchStmt s, encl => by
    simp [Stmt.clearTargets, Stmt.branches, Occurrence.clearTarget]
  | .BlockStmt n l, encl => by
    simp [Stmt.clearTargets, Stmt.branches, listBranches_clearTargets l]
  | .IfStmt n ThenPos Then Else, encl => by
    simp [Stmt.clearTargets, Stmt.branches, listBranches_clearTargets Then,
      elseBranchesOf_clearTargets Else]
  | .ForStmt n BodyPos Body, encl => by
    simp [Stmt.clearTargets, Stmt.branches, listBranches_clearTargets Body]
  | .SwitchStmt n Body, encl => by
    simp [Stmt.clearTargets, Stmt.branches, clauseBranchesOf_clearTargets Body]
  | .SelectStmt n Body, encl => by
    simp [Stmt.clearTargets, Stmt.branches, clauseBranchesOf_clearTargets Body]
  | .Other n, encl => by
    simp [Stmt.clearTargets, Stmt.branches]
theorem listBranches_clearTargets : ∀ (body : List Stmt) (encl : List StmtRef),
    listBranches encl (listClearTargets body) =
      (listBranches encl body).map Occurrence.clearTarget
  | [], encl => by simp [listClearTargets, listBranches]
  | stmt :: rest, encl => by
    simp [listClearTargets, listBranches, Stmt.branches_clearTargets stmt,
      listBranches_clearTargets rest]
theorem elseBranchesOf_clearTargets : ∀ (els : Option Stmt) (encl : List StmtRef),
    elseBranchesOf encl (elseClearTargets els) =
      (elseBranchesOf encl els).map Occurrence.clearTarget
  | none, encl => by simp [elseClearTargets, elseBranchesOf]
  | some e, encl => by
    simp [elseClearTargets, elseBranchesOf, Stmt.branches_clearTargets e]
theorem clauseBranchesOf_clearTargets : ∀ (body : List Clause) (encl : List StmtRef),
    clauseBranchesOf encl (clauseClearTargets body) =
      (clauseBranchesOf encl body).map Occurrence.clearTarget
  | [], encl => by simp [clauseClearTargets, clauseBranchesOf]
  | .mk pos Body :: rest, encl => by
    simp [clauseClearTargets, clauseBranchesOf, listBranches_clearTargets Body,
      clauseBranchesOf_clearTargets rest]
end

theorem bodyBranches_clearTargets (body : Option BlockStmt) :
    bodyBranches (bodyClearTargets body) = (bodyBranches body).map Occurrence.clearTarget := by
  cases body with
  | none => rfl
  | some body => simp [bodyClearTargets, bodyBranches, listBranches_clearTargets]

theorem step_clearTarget (o o' : Occurrence) (h : o.clearTarget = o'.clearTarget) :
    o.s.isInvalid = o'.s.isInvalid ∧ o.diagnostics = o'.diagnostics ∧
      (o.diagnostics = [] → (o.s.Tok = token._Break ∨ o.s.Tok = token._Continue) →
        o.s.isInvalid = false →
        (⟨o.encl, o.step.tree⟩ : Occurrence) = ⟨o'.encl, o'.step.tree⟩) := by
  obtain ⟨encl, ⟨n, Tok, Label, Target⟩⟩ := o
  obtain ⟨encl', ⟨n', Tok', Label', Target'⟩⟩ := o'
  simp only [Occurrence.clearTarget, Occurrence.mk.injEq, BranchStmt.mk.injEq,
    and_true] at h
  obtain ⟨h1, h2, h3, h4⟩ := h
  subst h1 h2 h3 h4
  cases Label <;> cases Tok <;>
    simp [BranchStmt.isInvalid, Occurrence.diagnostics, Occurrence.step, branchStmt,
      labelScope.enclosingTarget, labelScope.lookup, labelScope.err]
  · cases (ctxtOf encl).breaks <;> simp
  · cases (ctxtOf encl).continues <;> simp

theorem walk_clearTarget : ∀ (occs occs' : List Occurrence),
    occs.map Occurrence.clearTarget = occs'.map Occurrence.clearTarget →
    panicOf occs = panicOf occs' ∧ errsOf occs = errsOf occs' ∧
    (panicOf occs = none → ∀ (i : Nat) (o : Occurrence), occs[i]? = some o →
      o.diagnostics = [] → (o.s.Tok = token._Break ∨ o.s.Tok = token._Continue) →
      (outOf occs)[i]? = (outOf occs')[i]?)
  | [], [], _ => by simp
  | [], _ :: _, h => by simp at h
  | _ :: _, [], h => by simp at h
  | o :: rest, o' :: rest', h => by
    simp only [List.map_cons, List.cons.injEq] at h
    obtain ⟨s1, s2, s3⟩ := step_clearTarget o o' h.1
    obtain ⟨ih1, ih2, ih3⟩ := walk_clearTarget rest rest' h.2
    have hd : o.step.ls.errh = o'.step.ls.errh := s2
    refine ⟨?_, ?_, ?_⟩
    · simp [panicOf_cons, ← s1, ih1]
    · simp [errsOf_cons, ← s1, ih2, hd]
    · intro hp i x hi hx ht
      have hvo : o.s.isInvalid = false := (panicOf_eq_none _).1 hp o (List.mem_cons_self _ _)
      have hvo' : o'.s.isInvalid = false := by rw [← s1]; exact hvo
      have hp' : panicOf rest = none := by
        simpa [panicOf_cons, hvo] using hp
      simp only [outOf_cons, hvo, hvo', Bool.false_eq_true, if_false]
      cases i with
      | zero =>
        replace hi : o = x := by simpa using hi
        subst hi
        simp [s3 hx ht hvo]
      | succ j =>
        replace hi : rest[j]? = some x := by simpa using hi
        simpa using ih3 hp' j x hi hx ht

theorem step_keeps_kind (o : Occurrence) :
    (⟨o.encl, o.step.tree⟩ : Occurrence).clearTarget = o.clearTarget := by
  have h := (branchStmt_frame ⟨none, ⟨0, 0⟩, none⟩ (ctxtOf o.encl) o.s ⟨[], none⟩).1
  simp only [Occurrence.clearTarget, Occurrence.step]
  simp only at h
  rw [h]

theorem outOf_clearTarget : ∀ occs : List Occurrence,
    (outOf occs).map Occurrence.clearTarget = occs.map Occurrence.clearTarget
  | [] => rfl
  | o :: rest => by
    by_cases hv : o.s.isInvalid
    · simp [outOf_cons, hv]
    · simp [outOf_cons, hv, step_keeps_kind o, outOf_clearTarget rest]

theorem step_idem (o : Occurrence) :
    (Occurrence.step ⟨o.encl, o.step.tree⟩).tree = o.step.tree := by
  obtain ⟨encl, ⟨n, Tok, Label, Target⟩⟩ := o
  cases Label <;> cases Tok <;>
    simp [Occurrence.step, branchStmt, labelScope.enclosingTarget, labelScope.lookup,
      labelScope.err]
  · cases h : (ctxtOf encl).breaks <;> simp [h]
  · cases h : (ctxtOf encl).continues <;> simp [h]

theorem outOf_idem : ∀ occs : List Occurrence, panicOf occs = none →
    outOf (outOf occs) = outOf occs
  | [], _ => rfl
  | o :: rest, hp => by
    have hvo : o.s.isInvalid = false := (panicOf_eq_none _).1 hp o (List.mem_cons_self _ _)
    have hp' : panicOf rest = none := by simpa [panicOf_cons, hvo] using hp
    have h1 : (o.step.tree).isInvalid = false := by
      have := (step_clearTarget ⟨o.encl, o.step.tree⟩ o (step_keeps_kind o)).1
      simpa [hvo] using this
    simp [outOf_cons, hvo, h1, step_idem o, outOf_idem rest hp']


theorem panicOf_outOf (occs : List Occurrence) : panicOf (outOf occs) = panicOf occs :=
  (walk_clearTarget (outOf occs) occs (outOf_clearTarget occs)).1

theorem Sim.panic_none {α : Type} {f : α → List Occurrence} {occs : List Occurrence}
    {ls : labelScope} {r : Walk α} (h : Sim f occs ls r) (hp : panicOf occs = none) :
    r.panic = none := by
  rw [h.2.1, hp]

theorem Sim.rerun_panic_none {α : Type} {f : α → List Occurrence} {occs : List Occurrence}
    {ls ls' : labelScope} {r q : Walk α} (h1 : Sim f occs ls r)
    (h2 : Sim f (f r.tree) ls' q) (hp : panicOf occs = none) : q.panic = none := by
  rw [h2.2.1, h1.2.2, panicOf_outOf, hp]

theorem panicOf_append_none {xs ys : List Occurrence} (h : panicOf (xs ++ ys) = none) :
    panicOf xs = none ∧ panicOf ys = none := by
  rw [panicOf_append] at h
  cases hx : panicOf xs with
  | none => rw [hx] at h; exact ⟨rfl, h⟩
  | some m => rw [hx] at h; cases h

mutual
theorem stmtBranches_idem : ∀ (stmt : Stmt) (b b' : block)
    (lstmt lstmt' : Option LabeledStmtPtr) (encl : List StmtRef) (ls ls' : labelScope),
    ls.labels = none → ls'.labels = none → panicOf (Stmt.branches encl stmt) = none →
    (stmtBranches b' (ctxtOf encl) lstmt' (stmtBranches b (ctxtOf encl) lstmt stmt ls).tree
      ls').tree = (stmtBranches b (ctxtOf encl) lstmt stmt ls).tree
  | .LabeledStmt n Label inner, b, b', lstmt, lstmt', encl, ls, ls', h, h', hp => by
    simp only [Stmt.branches] at hp
    have ih := stmtBranches_idem inner b b'
      (if Label.Value ≠ "_" then some ⟨n.addr, Label, some inner.ref⟩ else lstmt)
      (if Label.Value ≠ "_" then some ⟨n.addr, Label,
        some (stmtBranches b (ctxtOf encl)
          (if Label.Value ≠ "_" then some ⟨n.addr, Label, some inner.ref⟩ else lstmt)
          inner ls).tree.ref⟩ else lstmt')
      (⟨.LabeledStmt, n.addr⟩ :: encl) ls ls' h h' hp
    rw [ctxtOf_cons_skip _ _ (by simp) (by simp) (by simp)] at ih
    simp only [stmtBranches]
    rw [ih]
  | .BranchStmt s, b, b', lstmt, lstmt', encl, ls, ls', h, h', hp => by
    simp only [stmtBranches, branchStmt_nolabels b encl s ls h,
      branchStmt_nolabels b' encl _ ls' h']
    rw [step_idem ⟨encl, s⟩]
  | .BlockStmt n l, b, b', lstmt, lstmt', encl, ls, ls', h, h', hp => by
    simp only [Stmt.branches] at hp
    have ih := blockBranches_idem l (some b) (some b') lstmt lstmt' n.pos n.pos
      (⟨.BlockStmt, n.addr⟩ :: encl) ls ls' h h' hp
    rw [ctxtOf_cons_skip _ _ (by simp) (by simp) (by simp)] at ih
    simp only [stmtBranches]
    rw [ih]
  | .IfStmt n ThenPos Then Else, b, b', lstmt, lstmt', encl, ls, ls', h, h', hp => by
    simp only [Stmt.branches] at hp
    obtain ⟨hp1, hp2⟩ := panicOf_append_none hp
    have s1 := blockBranches_sim Then (some b) lstmt ThenPos (⟨.IfStmt, n.addr⟩ :: encl) ls h
    have s1' := blockBranches_sim
      (blockBranches (some b) (ctxtOf (⟨.IfStmt, n.addr⟩ :: encl)) lstmt ThenPos Then ls).tree
      (some b') lstmt' ThenPos (⟨.IfStmt, n.addr⟩ :: encl) ls' h'
    have ih1 := blockBranches_idem Then (some b) (some b') lstmt lstmt' ThenPos ThenPos
      (⟨.IfStmt, n.addr⟩ :: encl) ls ls' h h' hp1
    have ih2 := elseBranches_idem Else b b' lstmt lstmt' (⟨.IfStmt, n.addr⟩ :: encl) _ _
      s1.labels s1'.labels hp2
    have q1 := s1.panic_none hp1
    have q1' := s1.rerun_panic_none s1' hp1
    rw [ctxtOf_cons_skip _ _ (by simp) (by simp) (by simp)] at ih1 ih2 q1 q1'
    simp only [stmtBranches, q1, q1']
    rw [ih1, ih2]
  | .ForStmt n BodyPos Body, b, b', lstmt, lstmt', encl, ls, ls', h, h', hp => by
    simp only [Stmt.branches] at hp
    have ih := blockBranches_idem Body (some b) (some b') lstmt lstmt' BodyPos BodyPos
      (⟨.ForStmt, n.addr⟩ :: encl) ls ls' h h' hp
    rw [ctxtOf_cons_for] at ih
    simp only [stmtBranches]
    rw [ih]
  | .SwitchStmt n Body, b, b', lstmt, lstmt', encl, ls, ls', h, h', hp => by
    simp only [Stmt.branches] at hp
    have ih := clauseBranches_idem Body b b' lstmt lstmt'
      (⟨.SwitchStmt, n.addr⟩ :: encl) ls ls' h h' hp
    rw [ctxtOf_cons_switch] at ih
    simp only [stmtBranches]
    rw [ih]
  | .SelectStmt n Body, b, b', lstmt, lstmt', encl, ls, ls', h, h', hp => by
    simp only [Stmt.branches] at hp
    have ih := clauseBranches_idem Body b b' lstmt lstmt'
      (⟨.SelectStmt, n.addr⟩ :: encl) ls ls' h h' hp
    rw [ctxtOf_cons_select] at ih
    simp only [stmtBranches]
    rw [ih]
  | .Other n, b, b', lstmt, lstmt', encl, ls, ls', h, h', hp => by
    simp only [stmtBranches]
theorem blockBranches_idem : ∀ (body : List Stmt) (parent parent' : Option block)
    (lstmt lstmt' : Option LabeledStmtPtr) (start start' : Pos) (encl : List StmtRef)
    (ls ls' : labelScope),
    ls.labels = none → ls'.labels = none → panicOf (listBranches encl body) = none →
    (blockBranches parent' (ctxtOf encl) lstmt' start'
      (blockBranches parent (ctxtOf encl) lstmt start body ls).tree ls').tree =
      (blockBranches parent (ctxtOf encl) lstmt start body ls).tree
  | [], parent, parent', lstmt, lstmt', start, start', encl, ls, ls', h, h', hp => by
    simp only [blockBranches]
  | stmt :: rest, parent, parent', lstmt, lstmt', start, start', encl, ls, ls', h, h', hp => by
    simp only [listBranches] at hp
    obtain ⟨hp1, hp2⟩ := panicOf_append_none hp
    have s1 := stmtBranches_sim stmt ⟨parent, start, lstmt⟩ none encl ls h
    have s1' := stmtBranches_sim
      (stmtBranches ⟨parent, start, lstmt⟩ (ctxtOf encl) none stmt ls).tree
      ⟨parent', start', lstmt'⟩ none encl ls' h'
    have ih1 := stmtBranches_idem stmt ⟨parent, start, lstmt⟩ ⟨parent', start', lstmt'⟩
      none none encl ls ls' h h' hp1
    have ih2 := blockBranches_idem rest parent parent' lstmt lstmt' start start' encl _ _
      s1.labels s1'.labels hp2
    have q1 := s1.panic_none hp1
    have q1' := s1.rerun_panic_none s1' hp1
    simp only [blockBranches, q1, q1']
    rw [ih1, ih2]
theorem elseBranches_idem : ∀ (els : Option Stmt) (b b' : block)
    (lstmt lstmt' : Option LabeledStmtPtr) (encl : List StmtRef) (ls ls' : labelScope),
    ls.labels = none → ls'.labels = none → panicOf (elseBranchesOf encl els) = none →
    (elseBranches b' (ctxtOf encl) lstmt'
      (elseBranches b (ctxtOf encl) lstmt els ls).tree ls').tree =
      (elseBranches b (ctxtOf encl) lstmt els ls).tree
  | none, b, b', lstmt, lstmt', encl, ls, ls', h, h', hp => by
    simp only [elseBranches]
  | some e, b, b', lstmt, lstmt', encl, ls, ls', h, h', hp => by
    simp only [elseBranchesOf] at hp
    have ih := stmtBranches_idem e ⟨some b, e.Pos, lstmt⟩
      ⟨some b', (stmtBranches ⟨some b, e.Pos, lstmt⟩ (ctxtOf encl) none e ls).tree.Pos, lstmt'⟩
      none none encl ls ls' h h' hp
    simp only [elseBranches]
    rw [ih]
theorem clauseBranches_idem : ∀ (body : List Clause) (b b' : block)
    (lstmt lstmt' : Option LabeledStmtPtr) (encl : List StmtRef) (ls ls' : labelScope),
    ls.labels = none → ls'.labels = none → panicOf (clauseBranchesOf encl body) = none →
    (clauseBranches b' (ctxtOf encl) lstmt'
      (clauseBranches b (ctxtOf encl) lstmt body ls).tree ls').tree =
      (clauseBranches b (ctxtOf encl) lstmt body ls).tree
  | [], b, b', lstmt, lstmt', encl, ls, ls', h, h', hp => by
    simp only [clauseBranches]
  | .mk pos Body :: rest, b, b', lstmt, lstmt', encl, ls, ls', h, h', hp => by
    simp only [clauseBranchesOf] at hp
    obtain ⟨hp1, hp2⟩ := panicOf_append_none hp
    have s1 := blockBranches_sim Body (some b) lstmt pos encl ls h
    have s1' := blockBranches_sim
      (blockBranches (some b) (ctxtOf encl) lstmt pos Body ls).tree
      (some b') lstmt' pos encl ls' h'
    have ih1 := blockBranches_idem Body (some b) (some b') lstmt lstmt' pos pos encl ls ls'
      h h' hp1
    have ih2 := clauseBranches_idem rest b b' lstmt lstmt' encl _ _
      s1.labels s1'.labels hp2
    have q1 := s1.panic_none hp1
    have q1' := s1.rerun_panic_none s1' hp1
    simp only [clauseBranches, q1, q1']
    rw [ih1, ih2]
end


/-- C12: `checkBranches` is idempotent.  On a body on which it returns normally,
running it again on the body the first run left returns normally, leaves that
body as it is (every `Target` keeps its value) and reports the same errors, so
none that the first run did not report.  And the outcome does not depend on the
`Target` values present before the run: on any body that differs from `body` in
`Target` fields only, the pass returns normally, reports the same errors, and
every break or continue that it resolves (no diagnostic for it) ends as the same
branch statement with the same `Target`. -/
theorem checkBranches_idempotent (body : Option BlockStmt)
    (hnorm : (checkBranches body).panic = none) :
    (checkBranches (checkBranches body).tree).tree = (checkBranches body).tree ∧
    (checkBranches (checkBranches body).tree).ls.errh = (checkBranches body).ls.errh ∧
    (checkBranches (checkBranches body).tree).panic = none ∧
    (∀ body' : Option BlockStmt, bodyClearTargets body' = bodyClearTargets body →
      (checkBranches body').panic = none ∧
      (checkBranches body').ls.errh = (checkBranches body).ls.errh ∧
      ∀ (i : Nat) (o : Occurrence), (bodyBranches body)[i]? = some o →
        o.diagnostics = [] → (o.s.Tok = token._Break ∨ o.s.Tok = token._Continue) →
        (bodyBranches (checkBranches body').tree)[i]? =
          (bodyBranches (checkBranches body).tree)[i]?) := by
  have hp : panicOf (bodyBranches body) = none := by
    rw [← (checkBranches_sim body).2.1]
    exact hnorm
  obtain ⟨e1, p1, t1⟩ := checkBranches_sim body
  obtain ⟨e2, p2, t2⟩ := checkBranches_sim (checkBranches body).tree
  have hw := walk_clearTarget (outOf (bodyBranches body)) (bodyBranches body)
    (outOf_clearTarget _)
  refine ⟨?_, ?_, ?_, ?_⟩
  · cases body with
    | none => rfl
    | some body =>
      have s1 := blockBranches_sim body.List none none body.n.pos [] ⟨[], none⟩ rfl
      have s1' := blockBranches_sim
        (blockBranches none (ctxtOf []) none body.n.pos body.List ⟨[], none⟩).tree
        none none body.n.pos [] ⟨[], none⟩ rfl
      have hp' : panicOf (listBranches [] body.List) = none := hp
      have ih := blockBranches_idem body.List none none none none body.n.pos body.n.pos []
        ⟨[], none⟩ ⟨[], none⟩ rfl rfl hp'
      have q1 := s1.panic_none hp'
      have q1' := s1.rerun_panic_none s1' hp'
      rw [ctxtOf_nil] at ih q1 q1'
      simp only [checkBranches, q1, q1']
      rw [ih]
  · rw [e2, e1, t1, hw.2.1]
  · rw [p2, t1, hw.1, hp]
  · intro body' hc
    have hm : (bodyBranches body).map Occurrence.clearTarget =
        (bodyBranches body').map Occurrence.clearTarget := by
      rw [← bodyBranches_clearTargets, ← bodyBranches_clearTargets, hc]
    obtain ⟨w1, w2, w3⟩ := walk_clearTarget _ _ hm
    obtain ⟨e3, p3, t3⟩ := checkBranches_sim body'
    refine ⟨?_, ?_, ?_⟩
    · rw [p3, ← w1, hp]
    · rw [e3, e1, w2]
    · intro i o hi hd ht
      rw [t3, t1]
      exact (w3 hp i o hi hd ht).symm

/-- C12 on `break` followed by `for { continue }`: running the pass on the body
it left changes nothing and reports the same error again; and started with other
`Target` values the pass reports the same error and resolves the continue to the
same for statement. -/
theorem checkBranches_idempotent_witness :
    (checkBranches (some exBreakThenLoop)).panic = none ∧
      (checkBranches (checkBranches (some exBreakThenLoop)).tree).tree =
        (checkBranches (some exBreakThenLoop)).tree ∧
      (checkBranches (checkBranches (some exBreakThenLoop)).tree).ls.errh =
        [⟨⟨2, 1⟩, "break is not in a loop, switch, or select"⟩] ∧
      bodyClearTargets (some exBreakThenLoopSet) = bodyClearTargets (some exBreakThenLoop) ∧
      (checkBranches (some exBreakThenLoopSet)).ls.errh =
        [⟨⟨2, 1⟩, "break is not in a loop, switch, or select"⟩] ∧
      (bodyBranches (checkBranches (some exBreakThenLoopSet)).tree)[1]? =
        some ⟨[⟨.ForStmt, 3⟩], ⟨⟨4, ⟨4, 1⟩⟩, ._Continue, none, some ⟨.ForStmt, 3⟩⟩⟩ :=
  have h := checkBranches_idempotent (some exBreakThenLoop) (by decide)
  have h' := h.2.2.2 (some exBreakThenLoopSet) rfl
  ⟨by decide, h.1, h.2.1.trans (by decide), rfl, h'.2.1.trans (by decide),
    (h'.2.2 1 ⟨[⟨.ForStmt, 3⟩], ⟨⟨4, ⟨4, 1⟩⟩, ._Continue, none, none⟩⟩ (by decide)
      (by decide) (Or.inr rfl)).trans (by decide)⟩


/-! ## The walk does not depend on the errors and `used` flags it starts from -/

theorem lookup_tableSame : ∀ {a b : List (String × label)} (name : String),
    List.Forall₂ recordSame a b →
    (a.lookup name = none ∧ b.lookup name = none) ∨
      ∃ l l', a.lookup name = some l ∧ b.lookup name = some l' ∧ l.lstmt = l'.lstmt
  | [], [], _, _ => Or.inl ⟨rfl, rfl⟩
  | x :: a, y :: b, name, h => by
    cases h with
    | cons hxy hrest =>
      obtain ⟨k, l⟩ := x
      obtain ⟨k', l'⟩ := y
      obtain ⟨hk, _, hl⟩ := hxy
      simp only at hk hl
      subst hk
      by_cases hn : name = k
      · subst hn
        exact Or.inr ⟨l, l', by simp, by simp, hl⟩
      · have hne : (name == k) = false := by simpa using hn
        simp only [List.lookup_cons, hne]
        exact lookup_tableSame name hrest

theorem markUsed_tableSame (name : String) : ∀ {a b : List (String × label)},
    List.Forall₂ recordSame a b →
    List.Forall₂ recordSame (markUsed name a) (markUsed name b)
  | [], [], _ => by simp [markUsed]
  | x :: a, y :: b, h => by
    cases h with
    | cons hxy hrest =>
      obtain ⟨k, l⟩ := x
      obtain ⟨k', l'⟩ := y
      obtain ⟨hk, hp, hl⟩ := hxy
      simp only at hk hp hl
      subst hk
      by_cases hn : k = name
      · simp only [markUsed, hn, if_true]
        exact List.Forall₂.cons ⟨rfl, hp, hl⟩ hrest
      · simp only [markUsed, hn, if_false]
        exact List.Forall₂.cons ⟨rfl, hp, hl⟩ (markUsed_tableSame name hrest)

theorem enclosingTarget_loop_congr (l l' : label) (h : l.lstmt = l'.lstmt) :
    ∀ b : Option block, enclosingTarget.loop l b = enclosingTarget.loop l' b
  | none => by simp [enclosingTarget.loop]
  | some ⟨parent, start, lstmt⟩ => by
    simp only [enclosingTarget.loop, h]
    rw [enclosingTarget_loop_congr l l' h parent]

theorem enclosingTarget_indep (ls ls' : labelScope) (b : Option block) (name : String)
    (h : tableSame ls.labels ls'.labels) :
    (ls.enclosingTarget b name).1 = (ls'.enclosingTarget b name).1 ∧
      tableSame (ls.enclosingTarget b name).2.labels (ls'.enclosingTarget b name).2.labels ∧
      (ls.enclosingTarget b name).2.errh = ls.errh ∧
      (ls'.enclosingTarget b name).2.errh = ls'.errh := by
  obtain ⟨errh, labels⟩ := ls
  obtain ⟨errh', labels'⟩ := ls'
  cases labels with
  | none =>
    cases labels' with
    | none => simp [labelScope.enclosingTarget, labelScope.lookup, tableSame]
    | some _ => simp [tableSame] at h
  | some a =>
    cases labels' with
    | none => simp [tableSame] at h
    | some a' =>
      simp only [tableSame] at h
      rcases lookup_tableSame name h with ⟨h1, h2⟩ | ⟨l, l', h1, h2, h3⟩
      · simp [labelScope.enclosingTarget, labelScope.lookup, h1, h2, tableSame, h]
      · simp [labelScope.enclosingTarget, labelScope.lookup, h1, h2, tableSame,
          markUsed_tableSame name h, enclosingTarget_loop_congr l l' h3 b]

theorem branchStmt_indep (b : block) (ctxt : targets) (s : BranchStmt)
    (ls ls' : labelScope) (h : tableSame ls.labels ls'.labels) :
    Indep ls ls' (branchStmt b ctxt s ls) (branchStmt b ctxt s ls') := by
  obtain ⟨n, Tok, Label, Target⟩ := s
  cases Label with
  | none =>
    cases Tok <;> simp only [branchStmt]
    · cases ctxt.breaks <;> simp [Indep, h, labelScope.err]
    · cases ctxt.continues <;> simp [Indep, h, labelScope.err]
    all_goals simp [Indep, h]
  | some lbl =>
    have hf := enclosingTarget_indep ls ls' (some b) lbl.Value h
    cases Tok <;> simp only [branchStmt]
    · generalize ls.enclosingTarget (some b) lbl.Value = q at hf
      generalize ls'.enclosingTarget (some b) lbl.Value = q' at hf
      obtain ⟨t, ls1⟩ := q
      obtain ⟨t', ls1'⟩ := q'
      obtain ⟨hf1, hf2, hf3, hf4⟩ := hf
      simp only at hf1 hf2 hf3 hf4
      subst hf1
      cases t with
      | none => simp [Indep, hf2, hf3, hf4, labelScope.err]
      | some t =>
        obtain ⟨ta, tl, ts⟩ := t
        rcases ts with _ | ⟨k, a⟩
        · simp [Indep, hf2, hf3, hf4, labelScope.err]
        · cases k <;> simp [Indep, hf2, hf3, hf4, labelScope.err]
    · generalize ls.enclosingTarget (some b) lbl.Value = q at hf
      generalize ls'.enclosingTarget (some b) lbl.Value = q' at hf
      obtain ⟨t, ls1⟩ := q
      obtain ⟨t', ls1'⟩ := q'
      obtain ⟨hf1, hf2, hf3, hf4⟩ := hf
      simp only at hf1 hf2 hf3 hf4
      subst hf1
      cases t with
      | none => simp [Indep, hf2, hf3, hf4, labelScope.err]
      | some t =>
        obtain ⟨ta, tl, ts⟩ := t
        rcases ts with _ | ⟨k, a⟩
        · simp [Indep, hf2, hf3, hf4, labelScope.err]
        · cases k <;> simp [Indep, hf2, hf3, hf4, labelScope.err]
    all_goals simp [Indep, h]

theorem Indep.wrap_indep {α β : Type} {ls ls' : labelScope} {r r' : Walk α} (c : α → β)
    (h : Indep ls ls' r r') :
    Indep ls ls' (⟨c r.tree, r.ls, r.panic⟩ : Walk β) ⟨c r'.tree, r'.ls, r'.panic⟩ :=
  ⟨by rw [h.1], h.2.1, h.2.2.1, h.2.2.2⟩

theorem Indep.seq_indep {α β γ : Type} {ls ls' : labelScope} {r1 r1' : Walk α} {r2 r2' : Walk β}
    (c : α → β → γ) (b0 : β) (h1 : Indep ls ls' r1 r1') (h2 : Indep r1.ls r1'.ls r2 r2') :
    Indep ls ls'
      (match r1.panic with
       | some m => (⟨c r1.tree b0, r1.ls, some m⟩ : Walk γ)
       | none => ⟨c r1.tree r2.tree, r2.ls, r2.panic⟩)
      (match r1'.panic with
       | some m => (⟨c r1'.tree b0, r1'.ls, some m⟩ : Walk γ)
       | none => ⟨c r1'.tree r2'.tree, r2'.ls, r2'.panic⟩) := by
  obtain ⟨t1, p1, s1, d1, e1, e1'⟩ := h1
  obtain ⟨t2, p2, s2, d2, e2, e2'⟩ := h2
  rw [← p1]
  cases r1.panic with
  | some m => exact ⟨by rw [t1], rfl, s1, d1, e1, e1'⟩
  | none =>
    refine ⟨by rw [t1, t2], p2, s2, d1 ++ d2, ?_, ?_⟩
    · simp [e2, e1, List.append_assoc]
    · simp [e2', e1', List.append_assoc]

theorem Indep.nil_indep {α : Type} (a : α) (ls ls' : labelScope)
    (h : tableSame ls.labels ls'.labels) :
    Indep ls ls' (⟨a, ls, none⟩ : Walk α) ⟨a, ls', none⟩ :=
  ⟨rfl, rfl, h, [], by simp, by simp⟩

mutual
theorem stmtBranches_indep : ∀ (stmt : Stmt) (b : block) (ctxt : targets)
    (lstmt : Option LabeledStmtPtr) (ls ls' : labelScope),
    tableSame ls.labels ls'.labels →
    Indep ls ls' (stmtBranches b ctxt lstmt stmt ls) (stmtBranches b ctxt lstmt stmt ls')
  | .LabeledStmt n Label inner, b, ctxt, lstmt, ls, ls', h => by
    simp only [stmtBranches]
    exact Indep.wrap_indep (Stmt.LabeledStmt n Label) (stmtBranches_indep inner b ctxt _ ls ls' h)
  | .BranchStmt s, b, ctxt, lstmt, ls, ls', h => by
    simp only [stmtBranches]
    exact Indep.wrap_indep Stmt.BranchStmt (branchStmt_indep b ctxt s ls ls' h)
  | .BlockStmt n l, b, ctxt, lstmt, ls, ls', h => by
    simp only [stmtBranches]
    exact Indep.wrap_indep (Stmt.BlockStmt n)
      (blockBranches_indep l (some b) ctxt lstmt n.pos ls ls' h)
  | .IfStmt n ThenPos Then Else, b, ctxt, lstmt, ls, ls', h => by
    simp only [stmtBranches]
    have h1 := blockBranches_indep Then (some b) ctxt lstmt ThenPos ls ls' h
    exact Indep.seq_indep (Stmt.IfStmt n ThenPos) Else h1
      (elseBranches_indep Else b ctxt lstmt _ _ h1.2.2.1)
  | .ForStmt n BodyPos Body, b, ctxt, lstmt, ls, ls', h => by
    simp only [stmtBranches]
    exact Indep.wrap_indep (Stmt.ForStmt n BodyPos)
      (blockBranches_indep Body (some b) _ lstmt BodyPos ls ls' h)
  | .SwitchStmt n Body, b, ctxt, lstmt, ls, ls', h => by
    simp only [stmtBranches]
    exact Indep.wrap_indep (Stmt.SwitchStmt n) (clauseBranches_indep Body b _ lstmt ls ls' h)
  | .SelectStmt n Body, b, ctxt, lstmt, ls, ls', h => by
    simp only [stmtBranches]
    exact Indep.wrap_indep (Stmt.SelectStmt n) (clauseBranches_indep Body b _ lstmt ls ls' h)
  | .Other n, b, ctxt, lstmt, ls, ls', h => by
    simp only [stmtBranches]
    exact Indep.nil_indep _ _ _ h
theorem blockBranches_indep : ∀ (body : List Stmt) (parent : Option block) (ctxt : targets)
    (lstmt : Option LabeledStmtPtr) (start : Pos) (ls ls' : labelScope),
    tableSame ls.labels ls'.labels →
    Indep ls ls' (blockBranches parent ctxt lstmt start body ls)
      (blockBranches parent ctxt lstmt start body ls')
  | [], parent, ctxt, lstmt, start, ls, ls', h => by
    simp only [blockBranches]
    exact Indep.nil_indep _ _ _ h
  | stmt :: rest, parent, ctxt, lstmt, start, ls, ls', h => by
    simp only [blockBranches]
    have h1 := stmtBranches_indep stmt ⟨parent, start, lstmt⟩ ctxt none ls ls' h
    exact Indep.seq_indep List.cons rest h1
      (blockBranches_indep rest parent ctxt lstmt start _ _ h1.2.2.1)
theorem elseBranches_indep : ∀ (els : Option Stmt) (b : block) (ctxt : targets)
    (lstmt : Option LabeledStmtPtr) (ls ls' : labelScope),
    tableSame ls.labels ls'.labels →
    Indep ls ls' (elseBranches b ctxt lstmt els ls) (elseBranches b ctxt lstmt els ls')
  | none, b, ctxt, lstmt, ls, ls', h => by
    simp only [elseBranches]
    exact Indep.nil_indep _ _ _ h
  | some e, b, ctxt, lstmt, ls, ls', h => by
    simp only [elseBranches]
    exact Indep.wrap_indep some (stmtBranches_indep e ⟨some b, e.Pos, lstmt⟩ ctxt none ls ls' h)
theorem clauseBranches_indep : ∀ (body : List Clause) (b : block) (inner : targets)
    (lstmt : Option LabeledStmtPtr) (ls ls' : labelScope),
    tableSame ls.labels ls'.labels →
    Indep ls ls' (clauseBranches b inner lstmt body ls) (clauseBranches b inner lstmt body ls')
  | [], b, inner, lstmt, ls, ls', h => by
    simp only [clauseBranches]
    exact Indep.nil_indep _ _ _ h
  | .mk pos Body :: rest, b, inner, lstmt, ls, ls', h => by
    simp only [clauseBranches]
    have h1 := blockBranches_indep Body (some b) inner lstmt pos ls ls' h
    exact Indep.seq_indep (fun x r => Clause.mk pos x :: r) rest h1
      (clauseBranches_indep rest b inner lstmt _ _ h1.2.2.1)
end


/-! ## Sibling statements -/

theorem tableSame_of_frame : ∀ {a b : Option (List (String × label))},
    tableFrame a b → tableSame b a
  | none, none, _ => trivial
  | some a, some b, h => by
    simp only [tableFrame] at h
    simp only [tableSame]
    induction h with
    | nil => exact List.Forall₂.nil
    | cons hxy _ ih =>
      exact List.Forall₂.cons ⟨hxy.1.1.symm, hxy.1.2.1.symm, hxy.1.2.2.symm⟩ ih
  | none, some _, h => by simp [tableFrame] at h
  | some _, none, h => by simp [tableFrame] at h

theorem blockBranches_append (parent : Option block) (ctxt : targets)
    (lstmt : Option LabeledStmtPtr) (start : Pos) (ys : List Stmt) :
    ∀ (xs : List Stmt) (ls : labelScope),
      blockBranches parent ctxt lstmt start (xs ++ ys) ls =
        match (blockBranches parent ctxt lstmt start xs ls).panic with
        | some m =>
          ⟨(blockBranches parent ctxt lstmt start xs ls).tree ++ ys,
            (blockBranches parent ctxt lstmt start xs ls).ls, some m⟩
        | none =>
          ⟨(blockBranches parent ctxt lstmt start xs ls).tree ++
              (blockBranches parent ctxt lstmt start ys
                (blockBranches parent ctxt lstmt start xs ls).ls).tree,
            (blockBranches parent ctxt lstmt start ys
              (blockBranches parent ctxt lstmt start xs ls).ls).ls,
            (blockBranches parent ctxt lstmt start ys
              (blockBranches parent ctxt lstmt start xs ls).ls).panic⟩
  | [], ls => by simp [blockBranches]
  | x :: xs, ls => by
    have ih := blockBranches_append parent ctxt lstmt start ys xs
      (stmtBranches ⟨parent, start, lstmt⟩ ctxt none x ls).ls
    rw [List.cons_append]
    simp only [blockBranches]
    cases h1 : (stmtBranches ⟨parent, start, lstmt⟩ ctxt none x ls).panic with
    | some m => simp
    | none =>
      simp only
      rw [ih]
      cases h2 : (blockBranches parent ctxt lstmt start xs
        (stmtBranches ⟨parent, start, lstmt⟩ ctxt none x ls).ls).panic <;> simp

/-- C19: sibling statements are walked independently and in order.  For every
label scope, parent block, target set, associated label, start and statement
lists `xs` and `ys` such that the walk of `xs` does not panic: the walk of
`xs ++ ys` is the walk of `xs` followed by the walk of `ys` in the same block
with the same target set; the statements it leaves are those the walk of `xs`
alone leaves followed by those the walk of `ys` alone leaves (so every `Target`
is as when its list is walked alone); the errors it adds are those the walk of
`xs` alone adds followed by those the walk of `ys` alone adds; and it panics
exactly when the walk of `ys` alone does. -/
theorem siblings_walked_independently (ls : labelScope) (parent : Option block)
    (ctxt : targets) (lstmt : Option LabeledStmtPtr) (start : Pos) (xs ys : List Stmt)
    (hx : (blockBranches parent ctxt lstmt start xs ls).panic = none) :
    blockBranches parent ctxt lstmt start (xs ++ ys) ls =
        ⟨(blockBranches parent ctxt lstmt start xs ls).tree ++
            (blockBranches parent ctxt lstmt start ys
              (blockBranches parent ctxt lstmt start xs ls).ls).tree,
          (blockBranches parent ctxt lstmt start ys
            (blockBranches parent ctxt lstmt start xs ls).ls).ls,
          (blockBranches parent ctxt lstmt start ys
            (blockBranches parent ctxt lstmt start xs ls).ls).panic⟩ ∧
      (blockBranches parent ctxt lstmt start (xs ++ ys) ls).tree =
        (blockBranches parent ctxt lstmt start xs ls).tree ++
          (blockBranches parent ctxt lstmt start ys ls).tree ∧
      (blockBranches parent ctxt lstmt start (xs ++ ys) ls).ls.errh.drop ls.errh.length =
        (blockBranches parent ctxt lstmt start xs ls).ls.errh.drop ls.errh.length ++
          (blockBranches parent ctxt lstmt start ys ls).ls.errh.drop ls.errh.length ∧
      (blockBranches parent ctxt lstmt start (xs ++ ys) ls).panic =
        (blockBranches parent ctxt lstmt start ys ls).panic := by
  have happ := blockBranches_append parent ctxt lstmt start ys xs ls
  rw [hx] at happ
  simp only at happ
  obtain ⟨_, fx, dx, ex⟩ := blockBranches_frame xs parent ctxt lstmt start ls
  obtain ⟨t, p, _, d, e1, e2⟩ := blockBranches_indep ys parent ctxt lstmt start
    (blockBranches parent ctxt lstmt start xs ls).ls ls (tableSame_of_frame fx)
  refine ⟨happ, ?_, ?_, ?_⟩
  · rw [happ, t]
  · rw [happ]
    simp only [e1, e2, ex, List.append_assoc, List.drop_left]
  · rw [happ, p]

/-- C19 on `for { break }` followed by `break`, walked with a table that holds
`L` and `M` and one earlier error: the break after the loop is not inside the
loop (it is reported), the break in the loop is resolved, and the errors added
are those of the first list, then those of the second. -/
theorem siblings_walked_independently_witness :
    (blockBranches none ⟨none, none⟩ none ⟨1, 1⟩ [exLoopWithBreak] exScopeLM).panic = none ∧
      (blockBranches none ⟨none, none⟩ none ⟨1, 1⟩
          ([exLoopWithBreak] ++ [exPlainBreak]) exScopeLM).ls.errh.drop 1 =
        [⟨⟨6, 1⟩, "break is not in a loop, switch, or select"⟩] ∧
      (blockBranches none ⟨none, none⟩ none ⟨1, 1⟩
          ([exLoopWithBreak] ++ [exPlainBreak]) exScopeLM).tree =
        [.ForStmt ⟨2, ⟨2, 1⟩⟩ ⟨2, 5⟩
            [.BranchStmt ⟨⟨3, ⟨3, 1⟩⟩, ._Break, none, some ⟨.ForStmt, 2⟩⟩],
          exPlainBreak] :=
  have h := siblings_walked_independently exScopeLM none ⟨none, none⟩ none ⟨1, 1⟩
    [exLoopWithBreak] [exPlainBreak] (by decide)
  ⟨by decide, h.2.2.1.trans (by decide), h.2.1.trans (by rfl)⟩


/-! ## Stacked labels -/

theorem enclosingTarget_of_lookup (ls : labelScope) (b : Option block) (name : String)
    (l : label) (h : ls.lookup name = some l) :
    ls.enclosingTarget b name =
      (some (enclosingTarget.loop l b), ⟨ls.errh, ls.labels.map (markUsed name)⟩) := by
  simp [labelScope.enclosingTarget, h]

theorem labelScope.lookup_after_markUsed (ls : labelScope) (name other : String)
    (hne : other ≠ name) :
    (⟨ls.errh, ls.labels.map (markUsed name)⟩ : labelScope).lookup other = ls.lookup other := by
  obtain ⟨errh, labels⟩ := ls
  cases labels with
  | none => rfl
  | some labels =>
    simpa [labelScope.lookup] using Branches.lookup_markUsed_other name other hne labels

/-- C20: when labels are stacked on one statement, the innermost non-blank label
is the one associated with the blocks the statement introduces.  The walk of
`A: B: S` with `B` not blank walks `S` with `B:` as the current `lstmt`, and the
walk of `A: _: S` with `A` not blank walks `S` with `A:` as the current `lstmt`
(for a for statement `S` that is the `lstmt` of the block of the loop body).
So, for `A: B: for { break A; break B }` walked in a block chain that does not
carry `A:` and with a table that holds `A` and `B`, each with its own labeled
statement: `break B` gets the for statement as `Target`, `break A` is left as it
was and "invalid break label A" is reported at its label, and that is the only
error. -/
theorem stacked_labels_innermost_wins (b : block) (ctxt : targets)
    (lstmt : Option LabeledStmtPtr) (nA nB : node) (A B : Name) :
    (∀ (S : Stmt) (ls : labelScope), B.Value ≠ "_" →
      stmtBranches b ctxt lstmt (.LabeledStmt nA A (.LabeledStmt nB B S)) ls =
        ⟨.LabeledStmt nA A (.LabeledStmt nB B
            (stmtBranches b ctxt (some ⟨nB.addr, B, some S.ref⟩) S ls).tree),
          (stmtBranches b ctxt (some ⟨nB.addr, B, some S.ref⟩) S ls).ls,
          (stmtBranches b ctxt (some ⟨nB.addr, B, some S.ref⟩) S ls).panic⟩) ∧
    (∀ (S : Stmt) (ls : labelScope) (pos : Pos), A.Value ≠ "_" →
      stmtBranches b ctxt lstmt (.LabeledStmt nA A (.LabeledStmt nB ⟨pos, "_"⟩ S)) ls =
        ⟨.LabeledStmt nA A (.LabeledStmt nB ⟨pos, "_"⟩
            (stmtBranches b ctxt (some ⟨nA.addr, A, some ⟨.LabeledStmt, nB.addr⟩⟩) S ls).tree),
          (stmtBranches b ctxt (some ⟨nA.addr, A, some ⟨.LabeledStmt, nB.addr⟩⟩) S ls).ls,
          (stmtBranches b ctxt (some ⟨nA.addr, A, some ⟨.LabeledStmt, nB.addr⟩⟩) S ls).panic⟩) ∧
    (∀ (nF : node) (bodyPos : Pos) (nbA nbB : node) (pA pB : Pos) (TA TB : Option StmtRef)
        (ls : labelScope) (lA lB : label),
      B.Value ≠ "_" → nA.addr ≠ nB.addr →
      ls.lookup A.Value = some lA → lA.lstmt = ⟨nA.addr, A, some ⟨.LabeledStmt, nB.addr⟩⟩ →
      ls.lookup B.Value = some lB → lB.lstmt = ⟨nB.addr, B, some ⟨.ForStmt, nF.addr⟩⟩ →
      (¬ ∃ blk ∈ chain (some b), blk.carries lA) →
      (stmtBranches b ctxt lstmt
          (.LabeledStmt nA A (.LabeledStmt nB B (.ForStmt nF bodyPos
            [.BranchStmt ⟨nbA, ._Break, some ⟨pA, A.Value⟩, TA⟩,
             .BranchStmt ⟨nbB, ._Break, some ⟨pB, B.Value⟩, TB⟩]))) ls).tree =
        .LabeledStmt nA A (.LabeledStmt nB B (.ForStmt nF bodyPos
          [.BranchStmt ⟨nbA, ._Break, some ⟨pA, A.Value⟩, TA⟩,
           .BranchStmt ⟨nbB, ._Break, some ⟨pB, B.Value⟩, some ⟨.ForStmt, nF.addr⟩⟩])) ∧
      (stmtBranches b ctxt lstmt
          (.LabeledStmt nA A (.LabeledStmt nB B (.ForStmt nF bodyPos
            [.BranchStmt ⟨nbA, ._Break, some ⟨pA, A.Value⟩, TA⟩,
             .BranchStmt ⟨nbB, ._Break, some ⟨pB, B.Value⟩, TB⟩]))) ls).ls.errh =
        ls.errh ++ [⟨pA, "invalid break label " ++ A.Value⟩] ∧
      (stmtBranches b ctxt lstmt
          (.LabeledStmt nA A (.LabeledStmt nB B (.ForStmt nF bodyPos
            [.BranchStmt ⟨nbA, ._Break, some ⟨pA, A.Value⟩, TA⟩,
             .BranchStmt ⟨nbB, ._Break, some ⟨pB, B.Value⟩, TB⟩]))) ls).panic = none) := by
  refine ⟨?_, ?_, ?_⟩
  · intro S ls hB
    simp [stmtBranches, hB]
  · intro S ls pos hA
    simp [stmtBranches, hA, Stmt.ref, Stmt.kind, Stmt.node]
  · intro nF bodyPos nbA nbB pA pB TA TB ls lA lB hB hne hlA hsA hlB hsB hchain
    have hAB : B.Value ≠ A.Value := by
      intro h
      rw [h, hlA] at hlB
      have : lA = lB := by simpa using hlB
      rw [this, hsB] at hsA
      simp only [LabeledStmtPtr.mk.injEq] at hsA
      exact hne hsA.1.symm
    let b2 : block := ⟨some b, bodyPos, some ⟨nB.addr, B, some ⟨.ForStmt, nF.addr⟩⟩⟩
    have hnot : ¬ ∃ blk ∈ chain (some b2), blk.carries lA := by
      rintro ⟨blk, hmem, hcar⟩
      simp only [chain, List.mem_cons, b2] at hmem
      rcases hmem with rfl | hmem
      · simp only [block.carries, hsA, Option.map_some', Option.some.injEq] at hcar
        exact hne hcar.symm
      · exact hchain ⟨blk, hmem, hcar⟩
    have hfound : ∃ blk ∈ chain (some b2), blk.carries lB :=
      ⟨b2, by simp [chain, b2], by simp [block.carries, hsB, b2]⟩
    have e1 := enclosingTarget_of_lookup ls (some b2) A.Value lA hlA
    rw [enclosingTarget_loop_not_found lA (some b2) hnot] at e1
    have hlB' : (⟨ls.errh ++ [⟨pA, "invalid break label " ++ A.Value⟩],
        ls.labels.map (markUsed A.Value)⟩ : labelScope).lookup B.Value = some lB :=
      (ls.lookup_after_markUsed A.Value B.Value hAB).trans hlB
    have e2 := enclosingTarget_of_lookup _ (some b2) B.Value lB hlB'
    rw [enclosingTarget_loop_found lB (some b2) hfound, hsB] at e2
    simp only [b2] at e1 e2
    simp [stmtBranches, blockBranches, branchStmt, hB, Stmt.ref, Stmt.kind, Stmt.node, e1,
      e2, invalid, labelScope.err]

/-- C20 on `A: B: for { break A; break B }` in the block of the function body,
with a table that holds `A` and `B`: `break B` is resolved to the for statement,
`break A` is reported as "invalid break label A" and left unresolved. -/
theorem stacked_labels_innermost_wins_witness :
    exScopeAB.lookup "A" = some ⟨some exBodyBlock, exPtrA, false⟩ ∧
      exScopeAB.lookup "B" = some ⟨some exBodyBlock, exPtrB, false⟩ ∧
      (¬ ∃ blk ∈ chain (some exBodyBlock),
        blk.carries ⟨some exBodyBlock, exPtrA, false⟩) ∧
      (stmtBranches exBodyBlock ⟨none, none⟩ none exStacked exScopeAB).tree =
        exStackedWalked ∧
      (stmtBranches exBodyBlock ⟨none, none⟩ none exStacked exScopeAB).ls.errh =
        [⟨⟨3, 7⟩, "invalid break label A"⟩] ∧
      (stmtBranches exBodyBlock ⟨none, none⟩ none exStacked exScopeAB).panic = none :=
  have hc : ¬ ∃ blk ∈ chain (some exBodyBlock),
      blk.carries ⟨some exBodyBlock, exPtrA, false⟩ := by
    simp [chain, exBodyBlock, block.carries]
  have h := (stacked_labels_innermost_wins exBodyBlock ⟨none, none⟩ none ⟨2, ⟨2, 1⟩⟩
    ⟨3, ⟨2, 4⟩⟩ ⟨⟨2, 1⟩, "A"⟩ ⟨⟨2, 4⟩, "B"⟩).2.2 ⟨4, ⟨2, 7⟩⟩ ⟨2, 11⟩ ⟨5, ⟨3, 1⟩⟩ ⟨6, ⟨4, 1⟩⟩
    ⟨3, 7⟩ ⟨4, 7⟩ none none exScopeAB ⟨some exBodyBlock, exPtrA, false⟩
    ⟨some exBodyBlock, exPtrB, false⟩ (by decide) (by decide) rfl rfl rfl rfl hc
  ⟨rfl, rfl, hc, h.1, h.2.1, h.2.2⟩


end Branches
